import Mathlib

/-!
# Binary trie for IPv4 membership

A shallow embedding of `binaryTriesForIPv4Lookup.cpp` and a verification of its
insert / search / delete / in-order traversal and of the dotted-decimal
conversion helpers.

Conventions of the embedding.

* A value of `TrieNode` stands for a C++ `TrieNode*`: `TrieNode.null` is
  `nullptr`, `TrieNode.node l r e` is a pointer to a heap node whose fields are
  `left = l`, `right = r`, `isEnd = e`.  Every node is created by `new` and
  stored in exactly one slot, so the heap reachable from a pointer is a tree.
* `uint32_t` values are natural numbers below `2 ^ 32`; `int index` is an `Int`.
* A function that mutates the node it is given returns the new node.
-/

namespace BinaryTrieIPv4

/-- Pointer to a `TrieNode` (source lines 20-27). -/
inductive TrieNode where
  | null : TrieNode
  | node (left : TrieNode) (right : TrieNode) (isEnd : Bool) : TrieNode
  deriving DecidableEq

namespace TrieNode

/-- The result of `new TrieNode()`: both children `nullptr`, `isEnd = false`. -/
def fresh : TrieNode := node null null false

/-- The statement `if (!p) p = new TrieNode();` applied to a child slot. -/
def orFresh : TrieNode → TrieNode
  | null => fresh
  | node l r e => node l r e

/-- Number of heap nodes reachable from a pointer. -/
def size : TrieNode → Nat
  | null => 0
  | node l r _ => size l + size r + 1

end TrieNode

open TrieNode

/-- The expression `(key >> index) & 1` for `index ≥ 0`. -/
def keyBit (key : Nat) (index : Int) : Nat := (key >>> index.toNat) &&& 1

/-- `BinaryTrie::insertHelper` (source lines 42-57).  The source dereferences
`node` unconditionally; it is only ever called on the root or on a child slot
that was just filled, so the `null` case is never reached. -/
def insertHelper (node : TrieNode) (key : Nat) (index : Int) : TrieNode :=
  match node with
  | null => null
  | TrieNode.node left right isEnd =>
    if index < 0 then
      TrieNode.node left right true
    else if keyBit key index = 0 then
      TrieNode.node (insertHelper (orFresh left) key (index - 1)) right isEnd
    else
      TrieNode.node left (insertHelper (orFresh right) key (index - 1)) isEnd
termination_by (index + 1).toNat
decreasing_by all_goals omega

/-- `BinaryTrie::searchHelper` (source lines 60-71). -/
def searchHelper : TrieNode → Nat → Int → Bool
  | null, _, _ => false
  | TrieNode.node left right isEnd, key, index =>
    if index < 0 then isEnd
    else if keyBit key index = 0 then searchHelper left key (index - 1)
    else searchHelper right key (index - 1)

/-- `BinaryTrie::deleteHelper` (source lines 74-102): the node after the call
and the returned flag.  `delete node->left; node->left = nullptr;` leaves the
slot `null`. -/
def deleteHelper : TrieNode → Nat → Int → TrieNode × Bool
  | null, _, _ => (null, false)
  | TrieNode.node left right isEnd, key, index =>
    if index < 0 then
      if isEnd then
        (TrieNode.node left right false, decide (left = null) && decide (right = null))
      else (TrieNode.node left right isEnd, false)
    else if keyBit key index = 0 then
      let res := deleteHelper left key (index - 1)
      let left1 := if res.2 then null else res.1
      (TrieNode.node left1 right isEnd,
        !isEnd && decide (left1 = null) && decide (right = null))
    else
      let res := deleteHelper right key (index - 1)
      let right1 := if res.2 then null else res.1
      (TrieNode.node left right1 isEnd,
        !isEnd && decide (left = null) && decide (right1 = null))

/-- The expression `1 << index` converted to `uint32_t`.  For `index < 0` the
source's shift is undefined; the count is taken modulo 32 as the hardware does.
That case only arises for the argument of a call on a `nullptr` child, which
ignores it. -/
def shl1 (index : Int) : Nat := (1 <<< (index % 32).toNat) % 2 ^ 32

/-- `BinaryTrie::inOrderHelper` (source lines 105-118): the list of `path`
values handed to `binaryToIp` at line 113, in output order. -/
def inOrderHelper : TrieNode → Nat → Int → List Nat
  | null, _, _ => []
  | TrieNode.node left right isEnd, path, index =>
    inOrderHelper left path (index - 1)
      ++ (if isEnd then [path] else [])
      ++ inOrderHelper right (path ||| shl1 index) (index - 1)

/-- The class `BinaryTrie` (source lines 29-31): its only member is `root`. -/
structure BinaryTrie where
  root : TrieNode
  deriving DecidableEq

namespace BinaryTrie

/-- The constructor `BinaryTrie()` (source line 121): `root(new TrieNode())`. -/
def new : BinaryTrie := ⟨fresh⟩

/-- Core insert: `insertHelper(root, key, 31)` (source line 190). -/
def insertKey (t : BinaryTrie) (key : Nat) : BinaryTrie := ⟨insertHelper t.root key 31⟩

/-- Core search: `searchHelper(root, key, 31)` (source line 195). -/
def searchKey (t : BinaryTrie) (key : Nat) : Bool := searchHelper t.root key 31

/-- Core delete: `deleteHelper(root, key, 31)` with the returned flag discarded
(source line 200). -/
def deleteKey (t : BinaryTrie) (key : Nat) : BinaryTrie := ⟨(deleteHelper t.root key 31).1⟩

/-- The keys emitted by `inOrderHelper(root, 0, 31)` (source line 205). -/
def inOrderKeys (t : BinaryTrie) : List Nat := inOrderHelper t.root 0 31

/-- Total number of heap nodes of the trie, the root included. -/
def nodeCount (t : BinaryTrie) : Nat := t.root.size

end BinaryTrie

/-- The value of `return -1;` in a function returning `uint32_t`. -/
def invalidKey : Nat := 4294967295

/-- The test `ch >= '0' && ch <= '9'`. -/
def isDigit (ch : Char) : Bool := decide ('0' ≤ ch) && decide (ch ≤ '9')

/-- Local variables of `ipToBinary` that the loop updates (source lines 139-141):
`uint8_t parts[4]`, `uint16_t num`, `uint16_t index`. -/
structure ParseState where
  parts : List Nat
  num : Nat
  index : Nat
  deriving DecidableEq

/-- One iteration of the loop `for (char ch : ip)` (source lines 147-156);
`none` is the early `return -1`. -/
def parseStep (st : ParseState) (ch : Char) : Option ParseState :=
  if isDigit ch then
    some { st with num := (st.num * 10 + (ch.toNat - '0'.toNat)) % 2 ^ 16 }
  else if ch = '.' then
    if st.index ≥ 4 ∨ st.num > 255 then none
    else some
      { parts := st.parts.set st.index (st.num % 2 ^ 8)
        num := 0
        index := (st.index + 1) % 2 ^ 16 }
  else none

/-- The loop `for (char ch : ip)` of `ipToBinary` (source lines 146-157). -/
def parseLoop : List Char → ParseState → Option ParseState
  | [], st => some st
  | ch :: rest, st =>
    match parseStep st ch with
    | none => none
    | some st1 => parseLoop rest st1

/-- The expression `(parts[0] << 24) | (parts[1] << 16) | (parts[2] << 8) | parts[3]`
converted to `uint32_t` (source lines 164-165). -/
def packParts (parts : List Nat) : Nat :=
  ((parts.getD 0 0 <<< 24) ||| (parts.getD 1 0 <<< 16) ||| (parts.getD 2 0 <<< 8)
    ||| parts.getD 3 0) % 2 ^ 32

/-- `BinaryTrie::ipToBinary` (source lines 129-166).  `ip[0]` of an empty
`std::string` is the terminating `'\0'`, which is not a digit. -/
def ipToBinary (ip : String) : Nat :=
  match ip.data with
  | [] => invalidKey
  | c0 :: _ =>
    if !isDigit c0 then invalidKey
    else
      match parseLoop ip.data { parts := [0, 0, 0, 0], num := 0, index := 0 } with
      | none => invalidKey
      | some st =>
        if st.index ≥ 4 ∨ st.num > 255 then invalidKey
        else packParts (st.parts.set st.index (st.num % 2 ^ 8))

/-- `BinaryTrie::binaryToIp` (source lines 169-180); `to_string` of an unsigned
value is its decimal numeral. -/
def binaryToIp (binary : Nat) : String :=
  toString ((binary >>> 24) &&& 0xFF) ++ "." ++
    toString ((binary >>> 16) &&& 0xFF) ++ "." ++
    toString ((binary >>> 8) &&& 0xFF) ++ "." ++
    toString (binary &&& 0xFF)

namespace BinaryTrie

/-- `BinaryTrie::insert` (source lines 182-191), console output omitted. -/
def insert (t : BinaryTrie) (ip : String) : BinaryTrie :=
  let key := ipToBinary ip
  if key = invalidKey then t else t.insertKey key

/-- `BinaryTrie::search` (source lines 193-196). -/
def search (t : BinaryTrie) (ip : String) : Bool := t.searchKey (ipToBinary ip)

/-- `BinaryTrie::remove` (source lines 198-201). -/
def remove (t : BinaryTrie) (ip : String) : BinaryTrie := t.deleteKey (ipToBinary ip)

/-- The text written by `BinaryTrie::inOrderTraversal` (source lines 204-207). -/
def inOrderTraversal (t : BinaryTrie) : String :=
  String.join (t.inOrderKeys.map fun path => binaryToIp path ++ ", ") ++ "\n"

end BinaryTrie

/-- The trie of `main` after its last mutation (source lines 211-232). -/
def mainTrie : BinaryTrie :=
  ((((((((BinaryTrie.new.insert "192.168.1.1").insert "10.0.0.1").insert "256.0.0.1").remove
    "192.168.1.1").insert "10.8.2.5").insert "10.0.0.1").insert "140.0.0.1").insert "5.80.35.6")

/-- Tries reachable from the freshly constructed one by core inserts and
deletes of 32-bit keys. -/
inductive Reachable : BinaryTrie → Prop
  | new : Reachable BinaryTrie.new
  | insertKey (t : BinaryTrie) (key : Nat) : Reachable t → key < 2 ^ 32 →
      Reachable (t.insertKey key)
  | deleteKey (t : BinaryTrie) (key : Nat) : Reachable t → key < 2 ^ 32 →
      Reachable (t.deleteKey key)

/-- Shape of the subtree hanging at bit position `index`: a node reached after
all 32 bits (`index < 0`) is a terminal leaf, every other node is not terminal. -/
def shaped : TrieNode → Int → Bool
  | null, _ => true
  | TrieNode.node l r e, index =>
    if index < 0 then decide (l = null) && decide (r = null) && e
    else !e && shaped l (index - 1) && shaped r (index - 1)

/-- A node that is childless and not terminal. -/
def dead : TrieNode → Bool
  | null => false
  | TrieNode.node l r e => !e && decide (l = null) && decide (r = null)

/-- What a child slot holds after the parent has processed the result of
`deleteHelper` on it: `nullptr` when the flag asked for deletion. -/
def slot (res : TrieNode × Bool) : TrieNode := if res.2 then null else res.1

/-- No node strictly below the given one is dead. -/
def liveBelow : TrieNode → Bool
  | null => true
  | TrieNode.node l r _ => !dead l && liveBelow l && !dead r && liveBelow r

/-- The representation invariant of a trie: a non-null root, the fixed-depth
shape, and no dead node other than possibly the root. -/
def Inv (t : BinaryTrie) : Prop :=
  t.root ≠ null ∧ shaped t.root 31 = true ∧ liveBelow t.root = true

/-! ### The textual form `A.B.C.D` -/

/-- Decimal value of a string of digits. -/
def segValue (ds : List Char) : Nat :=
  ds.foldl (fun n c => n * 10 + (c.toNat - '0'.toNat)) 0

/-- A segment of the valid textual form: non-empty, decimal digits only, value
in `0..255`. -/
def validSegment (ds : List Char) : Bool :=
  !ds.isEmpty && ds.all isDigit && decide (segValue ds ≤ 255)

/-- The string made of four segments separated by `'.'`. -/
def dotted (a b c d : List Char) : String :=
  String.mk (a ++ ('.' :: (b ++ ('.' :: (c ++ ('.' :: d))))))

/-- The 32-bit big-endian packing `(A<<24)|(B<<16)|(C<<8)|D`. -/
def pack (A B C D : Nat) : Nat := (A <<< 24) ||| (B <<< 16) ||| (C <<< 8) ||| D

/-- The normalized dotted-decimal string of four values: each segment is the
decimal numeral of its value, without leading zeros. -/
def dottedDecimal (A B C D : Nat) : String :=
  dotted (Nat.repr A).data (Nat.repr B).data (Nat.repr C).data (Nat.repr D).data

/-! ### Strings the parser has to reject -/

/-- Some character of the string is neither a digit nor `'.'`. -/
def hasInvalidChar (ip : String) : Bool :=
  ip.data.any (fun c => !isDigit c && !decide (c = '.'))

/-- The string has a first character and that character is a digit. -/
def startsWithDigit (ip : String) : Bool :=
  match ip.data with
  | [] => false
  | c :: _ => isDigit c

/-- Number of `'.'`-separated segments of a string. -/
def segmentCount (ip : String) : Nat := ip.data.count '.' + 1

/-- Tries built from the freshly constructed one by the public `insert` and
`remove` called with arbitrary strings. -/
inductive PublicReachable : BinaryTrie → Prop
  | new : PublicReachable BinaryTrie.new
  | insert (t : BinaryTrie) (ip : String) : PublicReachable t → PublicReachable (t.insert ip)
  | remove (t : BinaryTrie) (ip : String) : PublicReachable t → PublicReachable (t.remove ip)

/-! ### Nodes addressed by their path from the root -/

/-- The pointer reached from `p` by following a list of bit choices (`false`
is `left`, bit 0; `true` is `right`, bit 1); `null` once the path leaves the
tree. -/
def descend : TrieNode → List Bool → TrieNode
  | p, [] => p
  | null, _ :: _ => null
  | TrieNode.node l r _, b :: bs => descend (if b then r else l) bs

/-- The `isEnd` flag behind a pointer; `false` for `nullptr`. -/
def terminal : TrieNode → Bool
  | null => false
  | TrieNode.node _ _ e => e

/-- The bit choices of a key from bit `n - 1` down to bit 0. -/
def keyPath (key : Nat) : Nat → List Bool
  | 0 => []
  | n + 1 => decide (keyBit key (n : Int) ≠ 0) :: keyPath key n

set_option maxRecDepth 8000

/-! ## Basic facts about the helpers -/

/-- Induction along the recursion of the helpers on `index`: negative indices
are the base case and `index` is reached from `index - 1`. -/
theorem index_induction {P : Int → Prop} (index : Int)
    (neg : ∀ i : Int, i < 0 → P i)
    (step : ∀ i : Int, 0 ≤ i → P (i - 1) → P i) : P index := by
  have key : ∀ n : Nat, ∀ i : Int, (i + 1).toNat = n → P i := by
    intro n
    induction n with
    | zero =>
      intro i hi
      by_cases h : i < 0
      · exact neg i h
      · exact step i (by omega) (neg _ (by omega))
    | succ m ih =>
      intro i hi
      exact step i (by omega) (ih (i - 1) (by omega))
  exact key _ index rfl

theorem orFresh_ne_null (p : TrieNode) : orFresh p ≠ null := by
  cases p <;> simp [orFresh, fresh]

theorem orFresh_of_ne_null {p : TrieNode} (h : p ≠ null) : orFresh p = p := by
  cases p
  · exact absurd rfl h
  · rfl

theorem insertHelper_node_neg (l r : TrieNode) (e : Bool) (key : Nat) {index : Int}
    (h : index < 0) : insertHelper (node l r e) key index = node l r true := by
  rw [insertHelper]; simp [h]

theorem insertHelper_node_zero (l r : TrieNode) (e : Bool) (key : Nat) {index : Int}
    (h : 0 ≤ index) (hb : keyBit key index = 0) :
    insertHelper (node l r e) key index
      = node (insertHelper (orFresh l) key (index - 1)) r e := by
  rw [insertHelper]; simp [not_lt.mpr h, hb]

theorem insertHelper_node_one (l r : TrieNode) (e : Bool) (key : Nat) {index : Int}
    (h : 0 ≤ index) (hb : keyBit key index ≠ 0) :
    insertHelper (node l r e) key index
      = node l (insertHelper (orFresh r) key (index - 1)) e := by
  rw [insertHelper]; simp [not_lt.mpr h, hb]

theorem insertHelper_ne_null {p : TrieNode} (h : p ≠ null) (key : Nat) (index : Int) :
    insertHelper p key index ≠ null := by
  cases p with
  | null => exact absurd rfl h
  | node l r e =>
    by_cases hi : index < 0
    · simp [insertHelper_node_neg l r e key hi]
    · by_cases hb : keyBit key index = 0
      · simp [insertHelper_node_zero l r e key (not_lt.mp hi) hb]
      · simp [insertHelper_node_one l r e key (not_lt.mp hi) hb]

theorem searchHelper_fresh (key : Nat) (index : Int) : searchHelper fresh key index = false := by
  simp [fresh, searchHelper]

theorem searchHelper_orFresh (p : TrieNode) (key : Nat) (index : Int) :
    searchHelper (orFresh p) key index = searchHelper p key index := by
  cases p
  · simp [orFresh, searchHelper_fresh, searchHelper]
  · rfl

theorem keyBit_eq (key : Nat) (index : Int) :
    keyBit key index = key / 2 ^ index.toNat % 2 := by
  simp [keyBit, Nat.shiftRight_eq_div_pow, Nat.and_one_is_mod]

theorem keyBit_lt_two (key : Nat) (index : Int) : keyBit key index < 2 := by
  rw [keyBit_eq]; omega

/-- Two keys agree on the bits `n .. 0` exactly when they agree on bit `n` and
on the bits below it. -/
theorem mod_two_pow_succ_eq_iff (j k n : Nat) :
    j % 2 ^ (n + 1) = k % 2 ^ (n + 1)
      ↔ j / 2 ^ n % 2 = k / 2 ^ n % 2 ∧ j % 2 ^ n = k % 2 ^ n := by
  rw [Nat.mod_pow_succ, Nat.mod_pow_succ]
  have hp : 0 < 2 ^ n := Nat.two_pow_pos n
  have hj : j % 2 ^ n < 2 ^ n := Nat.mod_lt _ hp
  have hk : k % 2 ^ n < 2 ^ n := Nat.mod_lt _ hp
  generalize 2 ^ n = p at *
  generalize j % p = a at *
  generalize k % p = b at *
  have h1 : j / p % 2 = 0 ∨ j / p % 2 = 1 := by omega
  have h2 : k / p % 2 = 0 ∨ k / p % 2 = 1 := by omega
  rcases h1 with h1 | h1 <;> rcases h2 with h2 | h2 <;> rw [h1, h2] <;> omega

theorem searchHelper_insertHelper (j k : Nat) (index : Int) :
    ∀ p : TrieNode, p ≠ null →
      searchHelper (insertHelper p j index) k index
        = (searchHelper p k index
            || decide (j % 2 ^ (index + 1).toNat = k % 2 ^ (index + 1).toNat)) := by
  induction index using index_induction with
  | neg i hi =>
    intro p hp
    cases p with
    | null => exact absurd rfl hp
    | node l r e =>
      have h0 : (i + 1).toNat = 0 := by omega
      simp [insertHelper_node_neg l r e j hi, searchHelper, hi, h0, Nat.mod_one]
  | step i hi ih =>
    intro p hp
    cases p with
    | null => exact absurd rfl hp
    | node l r e =>
      have h1 : (i + 1).toNat = i.toNat + 1 := by omega
      have h2 : (i - 1 + 1).toNat = i.toNat := by omega
      have hlt : ¬ i < 0 := not_lt.mpr hi
      rw [h2] at ih
      have hdec : decide (j % 2 ^ (i.toNat + 1) = k % 2 ^ (i.toNat + 1))
          = (decide (keyBit j i = keyBit k i) && decide (j % 2 ^ i.toNat = k % 2 ^ i.toNat)) := by
        simp [mod_two_pow_succ_eq_iff, keyBit_eq]
      rw [h1, hdec]
      by_cases hj : keyBit j i = 0
      · rw [insertHelper_node_zero l r e j hi hj]
        by_cases hk : keyBit k i = 0
        · simp [searchHelper, hlt, hk, hj, ih _ (orFresh_ne_null l), searchHelper_orFresh]
        · have : ¬ (0 = keyBit k i) := fun h => hk h.symm
          simp [searchHelper, hlt, hk, hj, this]
      · rw [insertHelper_node_one l r e j hi hj]
        by_cases hk : keyBit k i = 0
        · simp [searchHelper, hlt, hk, hj]
        · have hjk : keyBit j i = keyBit k i := by
            have := keyBit_lt_two j i
            have := keyBit_lt_two k i
            omega
          simp [searchHelper, hlt, hk, hjk, ih _ (orFresh_ne_null r), searchHelper_orFresh]


theorem insertHelper_idem (key : Nat) (index : Int) :
    ∀ p : TrieNode, insertHelper (insertHelper p key index) key index
      = insertHelper p key index := by
  induction index using index_induction with
  | neg i hi =>
    intro p
    cases p with
    | null => simp [insertHelper]
    | node l r e => simp [insertHelper_node_neg _ _ _ key hi]
  | step i hi ih =>
    intro p
    cases p with
    | null => simp [insertHelper]
    | node l r e =>
      by_cases hb : keyBit key i = 0
      · rw [insertHelper_node_zero l r e key hi hb, insertHelper_node_zero _ r e key hi hb,
          orFresh_of_ne_null (insertHelper_ne_null (orFresh_ne_null l) key (i - 1)), ih]
      · rw [insertHelper_node_one l r e key hi hb, insertHelper_node_one l _ e key hi hb,
          orFresh_of_ne_null (insertHelper_ne_null (orFresh_ne_null r) key (i - 1)), ih]

theorem searchHelper_insertHelper_of_true (j k : Nat) (index : Int) (p : TrieNode)
    (h : searchHelper p k index = true) :
    searchHelper (insertHelper p j index) k index = true := by
  have hp : p ≠ null := by
    intro hn
    rw [hn] at h
    simp [searchHelper] at h
  rw [searchHelper_insertHelper j k index p hp, h]
  rfl

theorem searchKey_foldl_insertKey (k : Nat) (js : List Nat) :
    ∀ t : BinaryTrie, t.searchKey k = true →
      (js.foldl BinaryTrie.insertKey t).searchKey k = true := by
  induction js with
  | nil => intro t h; exact h
  | cons j js ih =>
    intro t h
    exact ih _ (searchHelper_insertHelper_of_true j k 31 t.root h)

/-! ## Insert and search -/

/-- C1: on every trie (the root is a node, never `nullptr`) and for every key,
searching the key right after the core insert of that key returns true. -/
theorem inserted_key_found (t : BinaryTrie) (hroot : t.root ≠ null) (k : Nat) :
    (t.insertKey k).searchKey k = true := by
  show searchHelper (insertHelper t.root k 31) k 31 = true
  rw [searchHelper_insertHelper k k 31 t.root hroot]
  simp

theorem inserted_key_found_witness :
    BinaryTrie.new.root ≠ null
      ∧ (BinaryTrie.new.insertKey 3232235777).searchKey 3232235777 = true :=
  ⟨by decide, inserted_key_found BinaryTrie.new (by decide) 3232235777⟩

/-- C6: a key that is found in a trie is still found after the core insert of
any key `j`, and after any further sequence of core inserts. -/
theorem search_stable_under_insert (t : BinaryTrie) (k j : Nat)
    (h : t.searchKey k = true) :
    (t.insertKey j).searchKey k = true
      ∧ ∀ js : List Nat, (js.foldl BinaryTrie.insertKey (t.insertKey j)).searchKey k = true := by
  have h1 : (t.insertKey j).searchKey k = true :=
    searchHelper_insertHelper_of_true j k 31 t.root h
  exact ⟨h1, fun js => searchKey_foldl_insertKey k js _ h1⟩

theorem search_stable_under_insert_witness :
    (BinaryTrie.new.insertKey 167772161).searchKey 167772161 = true
      ∧ ((BinaryTrie.new.insertKey 167772161).insertKey 3232235777).searchKey 167772161 = true
      ∧ ∀ js : List Nat,
          (js.foldl BinaryTrie.insertKey
            ((BinaryTrie.new.insertKey 167772161).insertKey 3232235777)).searchKey 167772161
            = true :=
  have hk : (BinaryTrie.new.insertKey 167772161).searchKey 167772161 = true := by
    simp [BinaryTrie.searchKey, BinaryTrie.insertKey, BinaryTrie.new, insertHelper,
      searchHelper, keyBit, fresh, orFresh]
  ⟨hk, search_stable_under_insert _ 167772161 3232235777 hk⟩

/-- C7: the core insert is idempotent: inserting a key a second time returns
the very trie the first insert produced. -/
theorem insert_idempotent (t : BinaryTrie) (k : Nat) :
    (t.insertKey k).insertKey k = t.insertKey k := by
  show BinaryTrie.mk (insertHelper (insertHelper t.root k 31) k 31)
    = BinaryTrie.mk (insertHelper t.root k 31)
  rw [insertHelper_idem]


/-! ## The representation invariant -/

@[simp] theorem dead_null : dead null = false := rfl

@[simp] theorem dead_node (l r : TrieNode) (e : Bool) :
    dead (node l r e) = (!e && decide (l = null) && decide (r = null)) := rfl

@[simp] theorem orFresh_null : orFresh null = fresh := rfl

@[simp] theorem orFresh_node (l r : TrieNode) (e : Bool) : orFresh (node l r e) = node l r e := rfl

theorem liveBelow_orFresh {p : TrieNode} (h : liveBelow p = true) :
    liveBelow (orFresh p) = true := by
  cases p with
  | null => simp [fresh, liveBelow]
  | node l r e => exact h

theorem dead_insertHelper {p : TrieNode} (hp : p ≠ null) (key : Nat) (index : Int) :
    dead (insertHelper p key index) = false := by
  cases p with
  | null => exact absurd rfl hp
  | node l r e =>
    by_cases hi : index < 0
    · simp [insertHelper_node_neg l r e key hi]
    · by_cases hb : keyBit key index = 0
      · simp [insertHelper_node_zero l r e key (not_lt.mp hi) hb,
          insertHelper_ne_null (orFresh_ne_null l)]
      · simp [insertHelper_node_one l r e key (not_lt.mp hi) hb,
          insertHelper_ne_null (orFresh_ne_null r)]

theorem liveBelow_insertHelper (key : Nat) (index : Int) :
    ∀ p : TrieNode, liveBelow p = true → liveBelow (insertHelper p key index) = true := by
  induction index using index_induction with
  | neg i hi =>
    intro p hp
    cases p with
    | null => simp [insertHelper, liveBelow]
    | node l r e => simpa [insertHelper_node_neg l r e key hi, liveBelow] using hp
  | step i hi ih =>
    intro p hp
    cases p with
    | null => simp [insertHelper, liveBelow]
    | node l r e =>
      simp only [liveBelow, Bool.and_eq_true, Bool.not_eq_true'] at hp
      obtain ⟨⟨⟨hdl, hl⟩, hdr⟩, hr⟩ := hp
      by_cases hb : keyBit key i = 0
      · simp [insertHelper_node_zero l r e key hi hb, liveBelow, hdr, hr,
          dead_insertHelper (orFresh_ne_null l), ih _ (liveBelow_orFresh hl)]
      · simp [insertHelper_node_one l r e key hi hb, liveBelow, hdl, hl,
          dead_insertHelper (orFresh_ne_null r), ih _ (liveBelow_orFresh hr)]

theorem shaped_insertHelper (key : Nat) (index : Int) :
    ∀ p : TrieNode, shaped p index = true →
      shaped (insertHelper (orFresh p) key index) index = true := by
  induction index using index_induction with
  | neg i hi =>
    intro p hp
    cases p with
    | null => simp [fresh, insertHelper_node_neg _ _ _ key hi, shaped, hi]
    | node l r e =>
      simp [shaped, hi] at hp
      simp [insertHelper_node_neg _ _ _ key hi, shaped, hi, hp]
  | step i hi ih =>
    intro p hp
    have hlt : ¬ i < 0 := not_lt.mpr hi
    cases p with
    | null =>
      have h0 := ih null (by simp [shaped])
      by_cases hb : keyBit key i = 0
      · simpa [fresh, insertHelper_node_zero _ _ _ key hi hb, shaped, hlt] using h0
      · simpa [fresh, insertHelper_node_one _ _ _ key hi hb, shaped, hlt] using h0
    | node l r e =>
      simp [shaped, hlt] at hp
      obtain ⟨⟨he, hl⟩, hr⟩ := hp
      by_cases hb : keyBit key i = 0
      · simp [insertHelper_node_zero _ _ _ key hi hb, shaped, hlt, he, hr, ih l hl]
      · simp [insertHelper_node_one _ _ _ key hi hb, shaped, hlt, he, hl, ih r hr]

theorem shaped_deleteHelper (key : Nat) :
    ∀ (p : TrieNode) (index : Int), shaped p index = true →
      shaped (slot (deleteHelper p key index)) index = true
        ∧ (0 ≤ index → shaped (deleteHelper p key index).1 index = true) := by
  intro p
  induction p with
  | null => intro index _; simp [deleteHelper, slot, shaped]
  | node l r e ihl ihr =>
    intro index hp
    by_cases hi : index < 0
    · simp [shaped, hi] at hp
      obtain ⟨⟨hl, hr⟩, he⟩ := hp
      subst hl hr he
      simp [deleteHelper, hi, slot, shaped]
    · simp [shaped, hi] at hp
      obtain ⟨⟨he, hl⟩, hr⟩ := hp
      subst he
      have hl1 := (ihl (index - 1) hl).1
      have hr1 := (ihr (index - 1) hr).1
      simp only [slot] at hl1 hr1
      by_cases hb : keyBit key index = 0
      · have key1 : shaped (deleteHelper (node l r false) key index).1 index = true := by
          simp [deleteHelper, hi, hb, shaped, hl1, hr]
        refine ⟨?_, fun _ => key1⟩
        simp only [slot]
        split
        · simp [shaped]
        · exact key1
      · have key1 : shaped (deleteHelper (node l r false) key index).1 index = true := by
          simp [deleteHelper, hi, hb, shaped, hr1, hl]
        refine ⟨?_, fun _ => key1⟩
        simp only [slot]
        split
        · simp [shaped]
        · exact key1

theorem liveBelow_deleteHelper (key : Nat) :
    ∀ (p : TrieNode) (index : Int), liveBelow p = true →
      liveBelow (deleteHelper p key index).1 = true
        ∧ (dead p = false → (deleteHelper p key index).2 = false →
            dead (deleteHelper p key index).1 = false) := by
  intro p
  induction p with
  | null => intro index _; simp [deleteHelper, liveBelow]
  | node l r e ihl ihr =>
    intro index hp
    simp only [liveBelow, Bool.and_eq_true, Bool.not_eq_true'] at hp
    obtain ⟨⟨⟨hdl, hl⟩, hdr⟩, hr⟩ := hp
    by_cases hi : index < 0
    · cases e <;> simp [deleteHelper, hi, liveBelow, hdl, hl, hdr, hr]
    · obtain ⟨hl1, hl2⟩ := ihl (index - 1) hl
      obtain ⟨hr1, hr2⟩ := ihr (index - 1) hr
      by_cases hb : keyBit key index = 0
      · simp only [deleteHelper, hi, hb, if_true, if_false]
        cases hf : (deleteHelper l key (index - 1)).2
        · simp [liveBelow, hdr, hr, hl1, hl2 hdl hf]
        · simp [liveBelow, hdr, hr]
      · simp only [deleteHelper, hi, hb, if_true, if_false]
        cases hf : (deleteHelper r key (index - 1)).2
        · simp [liveBelow, hdl, hl, hr1, hr2 hdr hf]
        · simp [liveBelow, hdl, hl]

theorem inv_new : Inv BinaryTrie.new := by
  simp [Inv, BinaryTrie.new, fresh, shaped, liveBelow]

theorem inv_insertKey {t : BinaryTrie} (h : Inv t) (key : Nat) : Inv (t.insertKey key) := by
  obtain ⟨h1, h2, h3⟩ := h
  refine ⟨insertHelper_ne_null h1 key 31, ?_, liveBelow_insertHelper key 31 _ h3⟩
  have := shaped_insertHelper key 31 t.root h2
  rwa [orFresh_of_ne_null h1] at this

theorem deleteHelper_ne_null {p : TrieNode} (hp : p ≠ null) (key : Nat) (index : Int) :
    (deleteHelper p key index).1 ≠ null := by
  cases p with
  | null => exact absurd rfl hp
  | node l r e =>
    by_cases hi : index < 0
    · cases e <;> simp [deleteHelper, hi]
    · by_cases hb : keyBit key index = 0 <;> simp [deleteHelper, hi, hb]

theorem inv_deleteKey {t : BinaryTrie} (h : Inv t) (key : Nat) : Inv (t.deleteKey key) := by
  obtain ⟨h1, h2, h3⟩ := h
  exact ⟨deleteHelper_ne_null h1 key 31,
    (shaped_deleteHelper key t.root 31 h2).2 (by decide),
    (liveBelow_deleteHelper key t.root 31 h3).1⟩

theorem inv_of_reachable {t : BinaryTrie} (h : Reachable t) : Inv t := by
  induction h with
  | new => exact inv_new
  | insertKey t key _ _ ih => exact inv_insertKey ih key
  | deleteKey t key _ _ ih => exact inv_deleteKey ih key


/-! ## Delete -/

theorem searchHelper_slot {res : TrieNode × Bool} {key : Nat} {index : Int}
    (h : searchHelper res.1 key index = false) : searchHelper (slot res) key index = false := by
  unfold slot
  split
  · simp [searchHelper]
  · exact h

/-- The key handed to `deleteHelper` is not found in the node it leaves behind. -/
theorem searchHelper_deleteHelper (key : Nat) :
    ∀ (p : TrieNode) (index : Int),
      searchHelper (deleteHelper p key index).1 key index = false := by
  intro p
  induction p with
  | null => intro index; simp [deleteHelper, searchHelper]
  | node l r e ihl ihr =>
    intro index
    by_cases hi : index < 0
    · cases e <;> simp [deleteHelper, searchHelper, hi]
    · have hl := searchHelper_slot (ihl (index - 1))
      have hr := searchHelper_slot (ihr (index - 1))
      simp only [slot] at hl hr
      by_cases hb : keyBit key index = 0
      · simp [deleteHelper, searchHelper, hi, hb, hl]
      · simp [deleteHelper, searchHelper, hi, hb, hr]

/-- Deleting a key that is not found changes nothing below a node that
satisfies the invariant, and does not ask for the node to be pruned. -/
theorem deleteHelper_of_not_found (key : Nat) :
    ∀ (p : TrieNode) (index : Int), shaped p index = true → liveBelow p = true →
      searchHelper p key index = false →
      (deleteHelper p key index).1 = p
        ∧ (dead p = false → (deleteHelper p key index).2 = false) := by
  intro p
  induction p with
  | null => intro index _ _ _; simp [deleteHelper]
  | node l r e ihl ihr =>
    intro index hs hlive hsearch
    simp only [liveBelow, Bool.and_eq_true, Bool.not_eq_true'] at hlive
    obtain ⟨⟨⟨hdl, hl⟩, hdr⟩, hr⟩ := hlive
    by_cases hi : index < 0
    · simp [shaped, hi] at hs
      simp [searchHelper, hi] at hsearch
      simp [hsearch] at hs
    · simp [shaped, hi] at hs
      obtain ⟨⟨he, hsl⟩, hsr⟩ := hs
      subst he
      by_cases hb : keyBit key index = 0
      · simp [searchHelper, hi, hb] at hsearch
        obtain ⟨h1, h2⟩ := ihl (index - 1) hsl hl hsearch
        simp [deleteHelper, hi, hb, h1, h2 hdl]
      · simp [searchHelper, hi, hb] at hsearch
        obtain ⟨h1, h2⟩ := ihr (index - 1) hsr hr hsearch
        simp [deleteHelper, hi, hb, h1, h2 hdr]

/-- Inserting a key that is not found and deleting it again restores the
slot: the nodes the insert created are exactly the nodes the delete prunes. -/
theorem deleteHelper_insertHelper (key : Nat) (index : Int) :
    ∀ p : TrieNode, shaped p index = true → liveBelow p = true →
      searchHelper p key index = false →
      (0 ≤ index → p ≠ null →
          (deleteHelper (insertHelper (orFresh p) key index) key index).1 = p)
        ∧ (dead p = false →
          slot (deleteHelper (insertHelper (orFresh p) key index) key index) = p) := by
  induction index using index_induction with
  | neg i hi =>
    intro p hs hlive hsearch
    refine ⟨fun h => absurd h (not_le.mpr hi), fun _ => ?_⟩
    cases p with
    | null => simp [fresh, insertHelper_node_neg _ _ _ key hi, deleteHelper, hi, slot]
    | node l r e =>
      simp [shaped, hi] at hs
      simp [searchHelper, hi] at hsearch
      simp [hsearch] at hs
  | step i hi ih =>
    intro p hs hlive hsearch
    have hlt : ¬ i < 0 := not_lt.mpr hi
    cases p with
    | null =>
      refine ⟨fun _ h => absurd rfl h, fun _ => ?_⟩
      have h0 := (ih null (by simp [shaped]) (by simp [liveBelow])
        (by simp [searchHelper])).2 (by simp)
      rw [orFresh_null] at h0 ⊢
      by_cases hb : keyBit key i = 0
      · have hf : insertHelper fresh key i = node (insertHelper fresh key (i - 1)) null false :=
          insertHelper_node_zero null null false key hi hb
        rw [hf]
        simp only [deleteHelper, hlt, hb, slot, if_false, if_true] at h0 ⊢
        generalize deleteHelper (insertHelper fresh key (i - 1)) key (i - 1) = res at h0 ⊢
        obtain ⟨a, b⟩ := res
        cases b <;> simp_all
      · have hf : insertHelper fresh key i = node null (insertHelper fresh key (i - 1)) false :=
          insertHelper_node_one null null false key hi hb
        rw [hf]
        simp only [deleteHelper, hlt, hb, slot, if_false, if_true] at h0 ⊢
        generalize deleteHelper (insertHelper fresh key (i - 1)) key (i - 1) = res at h0 ⊢
        obtain ⟨a, b⟩ := res
        cases b <;> simp_all
    | node l r e =>
      simp only [liveBelow, Bool.and_eq_true, Bool.not_eq_true'] at hlive
      obtain ⟨⟨⟨hdl, hl⟩, hdr⟩, hr⟩ := hlive
      simp [shaped, hlt] at hs
      obtain ⟨⟨he, hsl⟩, hsr⟩ := hs
      subst he
      by_cases hb : keyBit key i = 0
      · simp [searchHelper, hlt, hb] at hsearch
        have h0 := (ih l hsl hl hsearch).2 hdl
        simp only [slot] at h0
        have h1 : (deleteHelper (insertHelper (node l r false) key i) key i).1
            = node l r false := by
          simp [insertHelper_node_zero _ _ _ key hi hb, deleteHelper, hlt, hb, h0]
        refine ⟨fun _ _ => h1, fun hd => ?_⟩
        have h2 : (deleteHelper (insertHelper (node l r false) key i) key i).2
            = false := by
          simp at hd
          simp [insertHelper_node_zero _ _ _ key hi hb, deleteHelper, hlt, hb, h0]
          exact hd
        show slot (deleteHelper (insertHelper (node l r false) key i) key i) = node l r false
        simp [slot, h2, h1]
      · simp [searchHelper, hlt, hb] at hsearch
        have h0 := (ih r hsr hr hsearch).2 hdr
        simp only [slot] at h0
        have h1 : (deleteHelper (insertHelper (node l r false) key i) key i).1
            = node l r false := by
          simp [insertHelper_node_one _ _ _ key hi hb, deleteHelper, hlt, hb, h0]
        refine ⟨fun _ _ => h1, fun hd => ?_⟩
        have h2 : (deleteHelper (insertHelper (node l r false) key i) key i).2
            = false := by
          simp at hd
          simp [insertHelper_node_one _ _ _ key hi hb, deleteHelper, hlt, hb, h0]
          exact hd
        show slot (deleteHelper (insertHelper (node l r false) key i) key i) = node l r false
        simp [slot, h2, h1]

theorem deleteKey_of_not_found {t : BinaryTrie} (h : Inv t) {key : Nat}
    (hk : t.searchKey key = false) : t.deleteKey key = t := by
  obtain ⟨_, h2, h3⟩ := h
  cases t with
  | mk root =>
    show BinaryTrie.mk (deleteHelper root key 31).1 = BinaryTrie.mk root
    rw [(deleteHelper_of_not_found key root 31 h2 h3 hk).1]

theorem deleteKey_insertKey_of_not_found {t : BinaryTrie} (h : Inv t) {key : Nat}
    (hk : t.searchKey key = false) : (t.insertKey key).deleteKey key = t := by
  obtain ⟨h1, h2, h3⟩ := h
  cases t with
  | mk root =>
    show BinaryTrie.mk (deleteHelper (insertHelper root key 31) key 31).1 = BinaryTrie.mk root
    have := (deleteHelper_insertHelper key 31 root h2 h3 hk).1 (by decide) h1
    rw [orFresh_of_ne_null h1] at this
    rw [this]


/-- C3: after the core insert of a key followed by the core delete of the same
key, the core search of that key returns false.  This holds on every trie,
reachable or not, and for every key. -/
theorem deleted_key_not_found (t : BinaryTrie) (k : Nat) :
    ((t.insertKey k).deleteKey k).searchKey k = false :=
  searchHelper_deleteHelper k _ 31

/-- C4 as stated fails: when the key is already stored, the insert adds no node
and the delete then removes the 32 nodes of the key's path.  Starting from the
reachable trie that holds key 0 (33 nodes), insert 0 then delete 0 leaves the
bare root (1 node). -/
theorem node_count_insert_delete_counterexample :
    Reachable (BinaryTrie.new.insertKey 0)
      ∧ (BinaryTrie.new.insertKey 0).nodeCount = 33
      ∧ (((BinaryTrie.new.insertKey 0).insertKey 0).deleteKey 0).nodeCount = 1
      ∧ (((BinaryTrie.new.insertKey 0).insertKey 0).deleteKey 0).nodeCount
          ≠ (BinaryTrie.new.insertKey 0).nodeCount := by
  have h1 : (BinaryTrie.new.insertKey 0).nodeCount = 33 := by
    simp [BinaryTrie.nodeCount, BinaryTrie.insertKey, BinaryTrie.new, insertHelper, keyBit,
      fresh, size]
  have h2 : (((BinaryTrie.new.insertKey 0).insertKey 0).deleteKey 0).nodeCount = 1 := by
    simp [BinaryTrie.nodeCount, BinaryTrie.insertKey, BinaryTrie.deleteKey, BinaryTrie.new,
      insertHelper, deleteHelper, keyBit, fresh, size]
  refine ⟨Reachable.insertKey _ _ Reachable.new (by decide), h1, h2, ?_⟩
  rw [h1, h2]
  decide

/-- C4 (amended): on a reachable trie, for a key that is not stored, the core
insert followed by the core delete of that key restores the number of nodes. -/
theorem node_count_insert_delete (t : BinaryTrie) (hr : Reachable t) (k : Nat)
    (hk : t.searchKey k = false) :
    ((t.insertKey k).deleteKey k).nodeCount = t.nodeCount := by
  rw [deleteKey_insertKey_of_not_found (inv_of_reachable hr) hk]

theorem node_count_insert_delete_witness :
    Reachable (BinaryTrie.new.insertKey 167772161)
      ∧ (BinaryTrie.new.insertKey 167772161).searchKey 3232235777 = false
      ∧ (((BinaryTrie.new.insertKey 167772161).insertKey 3232235777).deleteKey
          3232235777).nodeCount = (BinaryTrie.new.insertKey 167772161).nodeCount :=
  have hr : Reachable (BinaryTrie.new.insertKey 167772161) :=
    Reachable.insertKey _ _ Reachable.new (by decide)
  have hk : (BinaryTrie.new.insertKey 167772161).searchKey 3232235777 = false := by
    simp [BinaryTrie.searchKey, BinaryTrie.insertKey, BinaryTrie.new, insertHelper,
      searchHelper, keyBit, fresh]
  ⟨hr, hk, node_count_insert_delete _ hr 3232235777 hk⟩

/-- C5: on a reachable trie, the core delete of a key that is not found returns
the trie structurally unchanged, hence every search result is unchanged. -/
theorem delete_absent_noop (t : BinaryTrie) (hr : Reachable t) (k : Nat)
    (hk : t.searchKey k = false) :
    t.deleteKey k = t ∧ ∀ j : Nat, (t.deleteKey k).searchKey j = t.searchKey j := by
  have h := deleteKey_of_not_found (inv_of_reachable hr) hk
  exact ⟨h, fun j => by rw [h]⟩

theorem delete_absent_noop_witness :
    Reachable (BinaryTrie.new.insertKey 167772161)
      ∧ (BinaryTrie.new.insertKey 167772161).searchKey 2886729729 = false
      ∧ (BinaryTrie.new.insertKey 167772161).deleteKey 2886729729
          = BinaryTrie.new.insertKey 167772161
      ∧ ∀ j : Nat, ((BinaryTrie.new.insertKey 167772161).deleteKey 2886729729).searchKey j
          = (BinaryTrie.new.insertKey 167772161).searchKey j :=
  have hr : Reachable (BinaryTrie.new.insertKey 167772161) :=
    Reachable.insertKey _ _ Reachable.new (by decide)
  have hk : (BinaryTrie.new.insertKey 167772161).searchKey 2886729729 = false := by
    simp [BinaryTrie.searchKey, BinaryTrie.insertKey, BinaryTrie.new, insertHelper,
      searchHelper, keyBit, fresh]
  ⟨hr, hk, delete_absent_noop _ hr 2886729729 hk⟩

/-! ## In-order traversal -/

/-- Inside the block of `2 ^ (m + 1)` consecutive keys that starts at a multiple
of `2 ^ (m + 1)`, bit `m` is clear exactly in the lower half. -/
theorem bit_clear_iff_lower_half {path k m : Nat} (hpath : path % 2 ^ (m + 1) = 0)
    (h1 : path ≤ k) (h2 : k < path + 2 ^ (m + 1)) :
    k / 2 ^ m % 2 = 0 ↔ k < path + 2 ^ m := by
  obtain ⟨q, hq⟩ := Nat.dvd_of_mod_eq_zero hpath
  have hp : 0 < 2 ^ m := Nat.two_pow_pos m
  rw [pow_succ] at hq h2
  generalize 2 ^ m = p at *
  have e1 : 2 * q * p = path := by rw [hq]; ring
  have e2 : (2 * q + 1) * p = path + p := by rw [hq]; ring
  have e3 : (2 * q + 1 + 1) * p = path + p * 2 := by rw [hq]; ring
  by_cases hlt : k < path + p
  · have hdiv : k / p = 2 * q :=
      Nat.div_eq_of_lt_le (by rw [e1]; exact h1) (by rw [e2]; exact hlt)
    simp [hdiv, hlt]
  · have hdiv : k / p = 2 * q + 1 :=
      Nat.div_eq_of_lt_le (by rw [e2]; omega) (by rw [e3]; exact h2)
    rw [hdiv]
    constructor
    · intro h; omega
    · intro h; exact absurd h hlt

theorem shl1_eq {index : Int} (h0 : 0 ≤ index) (h1 : index ≤ 31) :
    shl1 index = 2 ^ index.toNat := by
  have hm : (index % 32).toNat = index.toNat := by omega
  have hlt : 2 ^ index.toNat < 2 ^ 32 :=
    Nat.pow_lt_pow_right (by decide) (by omega)
  rw [shl1, hm, Nat.one_shiftLeft, Nat.mod_eq_of_lt hlt]

theorem or_two_pow_eq_add {path m : Nat} (hpath : path % 2 ^ (m + 1) = 0) :
    path ||| 2 ^ m = path + 2 ^ m := by
  obtain ⟨q, hq⟩ := Nat.dvd_of_mod_eq_zero hpath
  have hlt : 2 ^ m < 2 ^ (m + 1) := Nat.pow_lt_pow_right (by decide) (by omega)
  rw [hq, Nat.mul_add_lt_is_or hlt q]

/-- The traversal of a well-shaped subtree that hangs at bit position `index`
under the prefix `path` emits, in strictly increasing order, exactly the keys of
the block `[path, path + 2 ^ (index + 1))` that `searchHelper` finds in it. -/
theorem inOrderHelper_spec :
    ∀ (p : TrieNode) (path : Nat) (index : Int), -1 ≤ index → index ≤ 31 →
      shaped p index = true → path % 2 ^ (index + 1).toNat = 0 →
      List.Pairwise (fun a b => a < b) (inOrderHelper p path index)
        ∧ ∀ k : Nat, k ∈ inOrderHelper p path index
            ↔ (path ≤ k ∧ k < path + 2 ^ (index + 1).toNat
                ∧ searchHelper p k index = true) := by
  intro p
  induction p with
  | null =>
    intro path index _ _ _ _
    simp [inOrderHelper, searchHelper]
  | node l r e ihl ihr =>
    intro path index hlo hhi hs hpath
    by_cases hi : index < 0
    · have h0 : (index + 1).toNat = 0 := by omega
      simp [shaped, hi] at hs
      obtain ⟨⟨hl, hr⟩, he⟩ := hs
      subst hl hr he
      simp [inOrderHelper, searchHelper, hi, h0]
      intro k
      omega
    · have hge : 0 ≤ index := not_lt.mp hi
      have hn : (index + 1).toNat = index.toNat + 1 := by omega
      have hn1 : (index - 1 + 1).toNat = index.toNat := by omega
      rw [hn] at hpath ⊢
      simp [shaped, hi] at hs
      obtain ⟨⟨he, hsl⟩, hsr⟩ := hs
      subst he
      have hpow : 2 ^ (index.toNat + 1) = 2 ^ index.toNat * 2 := pow_succ 2 _
      have hpathm : path % 2 ^ index.toNat = 0 := by
        obtain ⟨q, hq⟩ := Nat.dvd_of_mod_eq_zero hpath
        rw [hq, hpow, Nat.mul_assoc]
        exact Nat.mul_mod_right _ _
      have hpathr : (path + 2 ^ index.toNat) % 2 ^ index.toNat = 0 := by
        rw [Nat.add_mod_right]; exact hpathm
      obtain ⟨hpl, hml⟩ := ihl path (index - 1) (by omega) (by omega) hsl
        (by rw [hn1]; exact hpathm)
      obtain ⟨hpr, hmr⟩ := ihr (path + 2 ^ index.toNat) (index - 1) (by omega) (by omega) hsr
        (by rw [hn1]; exact hpathr)
      rw [hn1] at hml hmr
      have hout : inOrderHelper (node l r false) path index
          = inOrderHelper l path (index - 1)
            ++ inOrderHelper r (path + 2 ^ index.toNat) (index - 1) := by
        simp [inOrderHelper, shl1_eq hge hhi, or_two_pow_eq_add hpath]
      rw [hout]
      constructor
      · rw [List.pairwise_append]
        refine ⟨hpl, hpr, fun a ha b hb => ?_⟩
        have h1 := ((hml a).1 ha).2.1
        have h2 := ((hmr b).1 hb).1
        omega
      · intro k
        rw [List.mem_append, hml, hmr]
        simp only [searchHelper, hi, if_false, keyBit_eq]
        constructor
        · rintro (⟨h1, h2, h3⟩ | ⟨h1, h2, h3⟩)
          · have hk2 : k < path + 2 ^ (index.toNat + 1) := by omega
            have hb := (bit_clear_iff_lower_half hpath h1 hk2).2 h2
            exact ⟨h1, hk2, by simp [hb, h3]⟩
          · have hk1 : path ≤ k := by omega
            have hk2 : k < path + 2 ^ (index.toNat + 1) := by omega
            have hb : ¬ k / 2 ^ index.toNat % 2 = 0 := fun h =>
              absurd ((bit_clear_iff_lower_half hpath hk1 hk2).1 h) (by omega)
            exact ⟨hk1, hk2, by simp [hb, h3]⟩
        · rintro ⟨h1, h2, h3⟩
          by_cases hb : k / 2 ^ index.toNat % 2 = 0
          · left
            simp [hb] at h3
            exact ⟨h1, (bit_clear_iff_lower_half hpath h1 h2).1 hb, h3⟩
          · right
            simp [hb] at h3
            have : ¬ k < path + 2 ^ index.toNat := fun h =>
              hb ((bit_clear_iff_lower_half hpath h1 h2).2 h)
            exact ⟨by omega, by omega, h3⟩


theorem searchKey_new (k : Nat) : BinaryTrie.new.searchKey k = false :=
  searchHelper_fresh k 31

theorem searchKey_insertKey {t : BinaryTrie} (h : t.root ≠ null) {j k : Nat}
    (hj : j < 2 ^ 32) (hk : k < 2 ^ 32) :
    (t.insertKey j).searchKey k = (t.searchKey k || decide (j = k)) := by
  show searchHelper (insertHelper t.root j 31) k 31 = _
  rw [searchHelper_insertHelper j k 31 t.root h]
  have h32 : ((31 : Int) + 1).toNat = 32 := by decide
  rw [h32, Nat.mod_eq_of_lt hj, Nat.mod_eq_of_lt hk]
  rfl

theorem reachable_foldl_insertKey (ks : List Nat) :
    ∀ t : BinaryTrie, Reachable t → (∀ k ∈ ks, k < 2 ^ 32) →
      Reachable (ks.foldl BinaryTrie.insertKey t) := by
  induction ks with
  | nil => intro t h _; exact h
  | cons j js ih =>
    intro t h hks
    exact ih _ (Reachable.insertKey t j h (hks j (List.mem_cons_self _ _)))
      (fun k hk => hks k (List.mem_cons_of_mem _ hk))

theorem searchKey_foldl_insertKey_iff (ks : List Nat) :
    ∀ t : BinaryTrie, t.root ≠ null → (∀ k ∈ ks, k < 2 ^ 32) → ∀ k : Nat, k < 2 ^ 32 →
      ((ks.foldl BinaryTrie.insertKey t).searchKey k = true
        ↔ (t.searchKey k = true ∨ k ∈ ks)) := by
  induction ks with
  | nil => intro t _ _ k _; simp
  | cons j js ih =>
    intro t ht hks k hk
    have hj : j < 2 ^ 32 := hks j (List.mem_cons_self _ _)
    rw [List.foldl_cons, ih (t.insertKey j) (insertHelper_ne_null ht j 31)
      (fun k hk => hks k (List.mem_cons_of_mem _ hk)) k hk, searchKey_insertKey ht hj hk]
    simp only [Bool.or_eq_true, decide_eq_true_eq, List.mem_cons]
    constructor
    · rintro ((h | h) | h)
      · exact Or.inl h
      · exact Or.inr (Or.inl h.symm)
      · exact Or.inr (Or.inr h)
    · rintro (h | h | h)
      · exact Or.inl (Or.inl h)
      · exact Or.inl (Or.inr h.symm)
      · exact Or.inr h

theorem inOrderKeys_spec {t : BinaryTrie} (h : Inv t) :
    List.Pairwise (fun a b => a < b) t.inOrderKeys
      ∧ ∀ k : Nat, k ∈ t.inOrderKeys ↔ (k < 2 ^ 32 ∧ t.searchKey k = true) := by
  obtain ⟨_, h2, _⟩ := h
  obtain ⟨hp, hm⟩ := inOrderHelper_spec t.root 0 31 (by decide) (by decide) h2 (by decide)
  refine ⟨hp, fun k => ?_⟩
  have h32 : ((31 : Int) + 1).toNat = 32 := by decide
  rw [h32] at hm
  show k ∈ inOrderHelper t.root 0 31 ↔ (k < 2 ^ 32 ∧ searchHelper t.root k 31 = true)
  rw [hm k]
  simp

theorem mainTrie_eq :
    mainTrie = ((((((BinaryTrie.new.insertKey 3232235777).insertKey 167772161).deleteKey
      3232235777).insertKey 168296965).insertKey 167772161).insertKey 2348810241).insertKey
      89137926 := by
  have h1 : ipToBinary "192.168.1.1" = 3232235777 := by decide
  have h2 : ipToBinary "10.0.0.1" = 167772161 := by decide
  have h3 : ipToBinary "256.0.0.1" = invalidKey := by decide
  have h4 : ipToBinary "10.8.2.5" = 168296965 := by decide
  have h5 : ipToBinary "140.0.0.1" = 2348810241 := by decide
  have h6 : ipToBinary "5.80.35.6" = 89137926 := by decide
  simp [mainTrie, BinaryTrie.insert, BinaryTrie.remove, h1, h2, h3, h4, h5, h6, invalidKey]

theorem reachable_mainTrie : Reachable mainTrie := by
  rw [mainTrie_eq]
  refine Reachable.insertKey _ _ (Reachable.insertKey _ _ (Reachable.insertKey _ _
    (Reachable.insertKey _ _ (Reachable.deleteKey _ _ (Reachable.insertKey _ _
    (Reachable.insertKey _ _ Reachable.new ?_) ?_) ?_) ?_) ?_) ?_) ?_ <;> decide

/-- C2: on every trie reachable by core inserts and deletes, the in-order
traversal started at the root with path 0 and index 31 emits the keys in
strictly increasing order, without repetition, and a key is emitted exactly
when it is a 32-bit key that the core search finds.  In particular, after the
core inserts of any list of 32-bit keys into the freshly constructed trie, the
traversal emits exactly the set of those keys in increasing order. -/
theorem inOrder_emits_members_ascending (t : BinaryTrie) (hr : Reachable t) :
    List.Pairwise (fun a b => a < b) t.inOrderKeys
      ∧ t.inOrderKeys.Nodup
      ∧ (∀ k : Nat, k ∈ t.inOrderKeys ↔ (k < 2 ^ 32 ∧ t.searchKey k = true))
      ∧ ∀ ks : List Nat, (∀ k ∈ ks, k < 2 ^ 32) →
          (ks.foldl BinaryTrie.insertKey BinaryTrie.new).inOrderKeys
            = ks.toFinset.sort (fun a b => a ≤ b) := by
  obtain ⟨hp, hm⟩ := inOrderKeys_spec (inv_of_reachable hr)
  have nodup_of : ∀ l : List Nat, List.Pairwise (fun a b => a < b) l → l.Nodup := fun l hl =>
    List.Pairwise.imp (fun hab => Nat.ne_of_lt hab) hl
  refine ⟨hp, nodup_of _ hp, hm, fun ks hks => ?_⟩
  have hr1 := reachable_foldl_insertKey ks BinaryTrie.new Reachable.new hks
  obtain ⟨hp1, hm1⟩ := inOrderKeys_spec (inv_of_reachable hr1)
  refine List.eq_of_perm_of_sorted (r := fun a b : Nat => a ≤ b) ?_
    (List.Pairwise.imp (fun hab => Nat.le_of_lt hab) hp1) (Finset.sort_sorted _ _)
  refine (List.perm_ext_iff_of_nodup (nodup_of _ hp1) (Finset.sort_nodup _ _)).2 (fun k => ?_)
  rw [hm1 k, Finset.mem_sort, List.mem_toFinset]
  constructor
  · rintro ⟨hk, hs⟩
    rcases (searchKey_foldl_insertKey_iff ks BinaryTrie.new (by decide) hks k hk).1 hs with h | h
    · rw [searchKey_new] at h
      exact absurd h (by decide)
    · exact h
  · intro hk
    exact ⟨hks k hk,
      (searchKey_foldl_insertKey_iff ks BinaryTrie.new (by decide) hks k (hks k hk)).2 (Or.inr hk)⟩

theorem inOrder_emits_members_ascending_witness :
    Reachable mainTrie
      ∧ mainTrie.inOrderKeys = [89137926, 167772161, 168296965, 2348810241]
      ∧ mainTrie.inOrderTraversal = "5.80.35.6, 10.0.0.1, 10.8.2.5, 140.0.0.1, \n"
      ∧ (List.Pairwise (fun a b => a < b) mainTrie.inOrderKeys
        ∧ mainTrie.inOrderKeys.Nodup
        ∧ (∀ k : Nat, k ∈ mainTrie.inOrderKeys ↔ (k < 2 ^ 32 ∧ mainTrie.searchKey k = true))
        ∧ ∀ ks : List Nat, (∀ k ∈ ks, k < 2 ^ 32) →
            (ks.foldl BinaryTrie.insertKey BinaryTrie.new).inOrderKeys
              = ks.toFinset.sort (fun a b => a ≤ b)) :=
  have hkeys : mainTrie.inOrderKeys = [89137926, 167772161, 168296965, 2348810241] := by
    rw [mainTrie_eq]
    simp [BinaryTrie.inOrderKeys, BinaryTrie.insertKey, BinaryTrie.deleteKey, BinaryTrie.new,
      insertHelper, deleteHelper, inOrderHelper, keyBit, shl1, fresh]
  have hout : mainTrie.inOrderTraversal = "5.80.35.6, 10.0.0.1, 10.8.2.5, 140.0.0.1, \n" := by
    rw [BinaryTrie.inOrderTraversal, hkeys]
    decide
  ⟨reachable_mainTrie, hkeys, hout,
    inOrder_emits_members_ascending mainTrie reachable_mainTrie⟩


/-! ## Dotted-decimal conversion -/

theorem le_foldl_digits (ds : List Char) :
    ∀ x : Nat, x ≤ ds.foldl (fun n c => n * 10 + (c.toNat - '0'.toNat)) x := by
  induction ds with
  | nil => intro x; exact Nat.le_refl x
  | cons c ds ih =>
    intro x
    exact Nat.le_trans (by omega) (ih (x * 10 + (c.toNat - '0'.toNat)))

/-- The loop reads a run of digits whose value stays within `0..255` into `num`
without wrapping. -/
theorem parseLoop_digits (rest : List Char) (ds : List Char) :
    ∀ st : ParseState, (∀ c ∈ ds, isDigit c = true) →
      ds.foldl (fun n c => n * 10 + (c.toNat - '0'.toNat)) st.num ≤ 255 →
      parseLoop (ds ++ rest) st
        = parseLoop rest
            { st with num := ds.foldl (fun n c => n * 10 + (c.toNat - '0'.toNat)) st.num } := by
  induction ds with
  | nil => intro st _ _; rfl
  | cons c ds ih =>
    intro st hd hv
    have hc : isDigit c = true := hd c (List.mem_cons_self _ _)
    have hle := le_foldl_digits ds (st.num * 10 + (c.toNat - '0'.toNat))
    rw [List.foldl_cons] at hv
    have hsmall : (st.num * 10 + (c.toNat - '0'.toNat)) % 2 ^ 16
        = st.num * 10 + (c.toNat - '0'.toNat) := Nat.mod_eq_of_lt (by omega)
    have hstep : parseStep st c
        = some { st with num := st.num * 10 + (c.toNat - '0'.toNat) } := by
      simp only [parseStep, hc, if_true, hsmall]
    rw [List.cons_append, parseLoop, hstep]
    exact ih _ (fun c1 h1 => hd c1 (List.mem_cons_of_mem _ h1)) hv

theorem parseLoop_dot (rest : List Char) (st : ParseState) (hi : st.index < 4)
    (hn : st.num ≤ 255) :
    parseLoop ('.' :: rest) st
      = parseLoop rest
          { parts := st.parts.set st.index st.num, num := 0, index := st.index + 1 } := by
  have h1 : isDigit '.' = false := by decide
  have h2 : ¬ (st.index ≥ 4 ∨ st.num > 255) := by omega
  have h3 : st.num % 2 ^ 8 = st.num := Nat.mod_eq_of_lt (by omega)
  have h4 : (st.index + 1) % 2 ^ 16 = st.index + 1 := Nat.mod_eq_of_lt (by omega)
  rw [parseLoop]
  simp only [parseStep, h1, h2, h3, h4, if_false, if_true, Bool.false_eq_true]

/-- A segment followed by `'.'` is stored in `parts[index]`. -/
theorem parseLoop_segment_dot (rest ds : List Char) (parts : List Nat) (idx : Nat)
    (hd : ∀ c ∈ ds, isDigit c = true) (hv : segValue ds ≤ 255) (hi : idx < 4) :
    parseLoop (ds ++ ('.' :: rest)) { parts := parts, num := 0, index := idx }
      = parseLoop rest { parts := parts.set idx (segValue ds), num := 0, index := idx + 1 } := by
  have h1 := parseLoop_digits ('.' :: rest) ds { parts := parts, num := 0, index := idx } hd hv
  rw [h1]
  exact parseLoop_dot rest _ hi hv

/-- The last segment is left in `num` when the loop ends. -/
theorem parseLoop_segment_end (ds : List Char) (parts : List Nat) (idx : Nat)
    (hd : ∀ c ∈ ds, isDigit c = true) (hv : segValue ds ≤ 255) :
    parseLoop ds { parts := parts, num := 0, index := idx }
      = some { parts := parts, num := segValue ds, index := idx } := by
  have h1 := parseLoop_digits [] ds { parts := parts, num := 0, index := idx } hd hv
  rw [List.append_nil] at h1
  exact h1

theorem pack_eq_add {A B C D : Nat} (_hA : A ≤ 255) (hB : B ≤ 255) (hC : C ≤ 255)
    (hD : D ≤ 255) :
    pack A B C D = A * 2 ^ 24 + B * 2 ^ 16 + C * 2 ^ 8 + D := by
  have h1 : A <<< 24 ||| B <<< 16 = 2 ^ 16 * (A * 2 ^ 8 + B) := by
    have := Nat.mul_add_lt_is_or (i := 24) (b := B <<< 16)
      (by rw [Nat.shiftLeft_eq]; omega) A
    rw [Nat.shiftLeft_eq A 24, Nat.mul_comm A (2 ^ 24), ← this, Nat.shiftLeft_eq]
    omega
  have h2 : 2 ^ 16 * (A * 2 ^ 8 + B) ||| C <<< 8 = 2 ^ 8 * (A * 2 ^ 16 + B * 2 ^ 8 + C) := by
    rw [← Nat.mul_add_lt_is_or (i := 16) (b := C <<< 8)
      (by rw [Nat.shiftLeft_eq]; omega) (A * 2 ^ 8 + B), Nat.shiftLeft_eq]
    omega
  rw [pack, h1, h2, ← Nat.mul_add_lt_is_or (i := 8) (b := D) (by omega)]
  omega

theorem validSegment_iff (ds : List Char) :
    validSegment ds = true
      ↔ ds ≠ [] ∧ (∀ c ∈ ds, isDigit c = true) ∧ segValue ds ≤ 255 := by
  cases ds <;> simp [validSegment, and_assoc]

/-- On a well-formed string the parser returns the packing of the four segment
values. -/
theorem ipToBinary_dotted {a b c d : List Char} (ha : validSegment a = true)
    (hb : validSegment b = true) (hc : validSegment c = true) (hd : validSegment d = true) :
    ipToBinary (dotted a b c d) = pack (segValue a) (segValue b) (segValue c) (segValue d) := by
  obtain ⟨ha0, had, hav⟩ := (validSegment_iff a).1 ha
  obtain ⟨_, hbd, hbv⟩ := (validSegment_iff b).1 hb
  obtain ⟨_, hcd, hcv⟩ := (validSegment_iff c).1 hc
  obtain ⟨_, hdd, hdv⟩ := (validSegment_iff d).1 hd
  have hloop : parseLoop (a ++ ('.' :: (b ++ ('.' :: (c ++ ('.' :: d))))))
      { parts := [0, 0, 0, 0], num := 0, index := 0 }
      = some { parts := [segValue a, segValue b, segValue c, 0], num := segValue d,
               index := 3 } := by
    rw [parseLoop_segment_dot _ a _ 0 had hav (by decide),
      parseLoop_segment_dot _ b _ 1 hbd hbv (by decide),
      parseLoop_segment_dot _ c _ 2 hcd hcv (by decide),
      parseLoop_segment_end d _ 3 hdd hdv]
    rfl
  have hpack : packParts [segValue a, segValue b, segValue c, segValue d]
      = pack (segValue a) (segValue b) (segValue c) (segValue d) := by
    have hlt : pack (segValue a) (segValue b) (segValue c) (segValue d) < 2 ^ 32 := by
      rw [pack_eq_add hav hbv hcv hdv]; omega
    exact Nat.mod_eq_of_lt hlt
  cases a with
  | nil => exact absurd rfl ha0
  | cons a0 as =>
    have ha0d : isDigit a0 = true := had a0 (List.mem_cons_self _ _)
    have hfin : ¬ ((3 : Nat) ≥ 4 ∨ segValue d > 255) := by omega
    have hmod : segValue d % 2 ^ 8 = segValue d := Nat.mod_eq_of_lt (by omega)
    rw [List.cons_append] at hloop
    simp only [ipToBinary, dotted, List.cons_append, ha0d, hloop, hfin, hmod, if_false,
      Bool.not_true, Bool.false_eq_true]
    exact hpack


theorem repr_valid_of_lt : ∀ A : Nat, A < 256 →
    validSegment (Nat.repr A).data = true ∧ segValue (Nat.repr A).data = A := by
  decide

theorem byte3_pack {A B C D : Nat} (hA : A ≤ 255) (hB : B ≤ 255) (hC : C ≤ 255)
    (hD : D ≤ 255) : (pack A B C D >>> 24) &&& 0xFF = A := by
  have h := Nat.and_pow_two_sub_one_eq_mod (pack A B C D >>> 24) 8
  rw [show (2 : Nat) ^ 8 - 1 = 0xFF from rfl] at h
  rw [h, Nat.shiftRight_eq_div_pow, pack_eq_add hA hB hC hD]
  omega

theorem byte2_pack {A B C D : Nat} (hA : A ≤ 255) (hB : B ≤ 255) (hC : C ≤ 255)
    (hD : D ≤ 255) : (pack A B C D >>> 16) &&& 0xFF = B := by
  have h := Nat.and_pow_two_sub_one_eq_mod (pack A B C D >>> 16) 8
  rw [show (2 : Nat) ^ 8 - 1 = 0xFF from rfl] at h
  rw [h, Nat.shiftRight_eq_div_pow, pack_eq_add hA hB hC hD]
  omega

theorem byte1_pack {A B C D : Nat} (hA : A ≤ 255) (hB : B ≤ 255) (hC : C ≤ 255)
    (hD : D ≤ 255) : (pack A B C D >>> 8) &&& 0xFF = C := by
  have h := Nat.and_pow_two_sub_one_eq_mod (pack A B C D >>> 8) 8
  rw [show (2 : Nat) ^ 8 - 1 = 0xFF from rfl] at h
  rw [h, Nat.shiftRight_eq_div_pow, pack_eq_add hA hB hC hD]
  omega

theorem byte0_pack {A B C D : Nat} (hA : A ≤ 255) (hB : B ≤ 255) (hC : C ≤ 255)
    (hD : D ≤ 255) : pack A B C D &&& 0xFF = D := by
  have h := Nat.and_pow_two_sub_one_eq_mod (pack A B C D) 8
  rw [show (2 : Nat) ^ 8 - 1 = 0xFF from rfl] at h
  rw [h, pack_eq_add hA hB hC hD]
  omega

theorem binaryToIp_pack {A B C D : Nat} (hA : A ≤ 255) (hB : B ≤ 255) (hC : C ≤ 255)
    (hD : D ≤ 255) : binaryToIp (pack A B C D) = dottedDecimal A B C D := by
  rw [binaryToIp, byte3_pack hA hB hC hD, byte2_pack hA hB hC hD, byte1_pack hA hB hC hD,
    byte0_pack hA hB hC hD]
  apply String.ext
  simp [dottedDecimal, dotted, String.data_append, toString]

theorem ipToBinary_dottedDecimal {A B C D : Nat} (hA : A ≤ 255) (hB : B ≤ 255)
    (hC : C ≤ 255) (hD : D ≤ 255) : ipToBinary (dottedDecimal A B C D) = pack A B C D := by
  obtain ⟨a1, a2⟩ := repr_valid_of_lt A (by omega)
  obtain ⟨b1, b2⟩ := repr_valid_of_lt B (by omega)
  obtain ⟨c1, c2⟩ := repr_valid_of_lt C (by omega)
  obtain ⟨d1, d2⟩ := repr_valid_of_lt D (by omega)
  rw [dottedDecimal, ipToBinary_dotted a1 b1 c1 d1, a2, b2, c2, d2]

/-- C9: for a string made of exactly four non-empty decimal segments separated
by `'.'`, each with value in `0..255`, `ipToBinary` returns the big-endian
packing `(A<<24)|(B<<16)|(C<<8)|D` of the four segment values. -/
theorem ipToBinary_valid_form (a b c d : List Char) (ha : validSegment a = true)
    (hb : validSegment b = true) (hc : validSegment c = true) (hd : validSegment d = true) :
    ipToBinary (dotted a b c d)
      = (segValue a <<< 24) ||| (segValue b <<< 16) ||| (segValue c <<< 8) ||| segValue d :=
  ipToBinary_dotted ha hb hc hd

theorem ipToBinary_valid_form_witness :
    validSegment ['1', '9', '2'] = true ∧ validSegment ['1', '6', '8'] = true
      ∧ validSegment ['1'] = true
      ∧ dotted ['1', '9', '2'] ['1', '6', '8'] ['1'] ['1'] = "192.168.1.1"
      ∧ ipToBinary (dotted ['1', '9', '2'] ['1', '6', '8'] ['1'] ['1'])
          = (segValue ['1', '9', '2'] <<< 24) ||| (segValue ['1', '6', '8'] <<< 16)
              ||| (segValue ['1'] <<< 8) ||| segValue ['1'] :=
  ⟨by decide, by decide, by decide, by decide,
    ipToBinary_valid_form ['1', '9', '2'] ['1', '6', '8'] ['1'] ['1']
      (by decide) (by decide) (by decide) (by decide)⟩

/-- C10: text round trip.  For the normalized dotted-decimal string of four
values in `0..255` (each segment the decimal numeral of its value, without
leading zeros), `binaryToIp (ipToBinary s)` is the string `s` again. -/
theorem text_round_trip (A B C D : Nat) (hA : A ≤ 255) (hB : B ≤ 255) (hC : C ≤ 255)
    (hD : D ≤ 255) :
    binaryToIp (ipToBinary (dottedDecimal A B C D)) = dottedDecimal A B C D := by
  rw [ipToBinary_dottedDecimal hA hB hC hD, binaryToIp_pack hA hB hC hD]

theorem text_round_trip_witness :
    dottedDecimal 192 168 1 1 = "192.168.1.1"
      ∧ ipToBinary "192.168.1.1" = 3232235777
      ∧ binaryToIp 3232235777 = "192.168.1.1"
      ∧ binaryToIp (ipToBinary (dottedDecimal 192 168 1 1)) = dottedDecimal 192 168 1 1 :=
  ⟨by decide, by decide, by decide,
    text_round_trip 192 168 1 1 (by decide) (by decide) (by decide) (by decide)⟩


/-! ## The public string interface -/

/-- When the parser does not return the sentinel, the public search finds a
string right after its public insert. -/
theorem public_lookup_after_insert_of_ne_sentinel (t : BinaryTrie) (hroot : t.root ≠ null)
    (s : String) (hs : ipToBinary s ≠ invalidKey) : (t.insert s).search s = true := by
  show searchHelper (BinaryTrie.insert t s).root (ipToBinary s) 31 = true
  simp only [BinaryTrie.insert, hs, if_false]
  show searchHelper (insertHelper t.root (ipToBinary s) 31) (ipToBinary s) 31 = true
  rw [searchHelper_insertHelper _ _ 31 t.root hroot]
  simp

/-- C8 fails on the code at the valid address `255.255.255.255`: its packing is
`0xFFFFFFFF`, the very value `insert` takes for the invalid-input sentinel, so
the public insert leaves the freshly constructed trie unchanged and the public
search of the same string then returns false. -/
theorem insert_search_all_ones :
    validSegment ['2', '5', '5'] = true
      ∧ dotted ['2', '5', '5'] ['2', '5', '5'] ['2', '5', '5'] ['2', '5', '5']
          = "255.255.255.255"
      ∧ ipToBinary "255.255.255.255" = invalidKey
      ∧ BinaryTrie.new.insert "255.255.255.255" = BinaryTrie.new
      ∧ (BinaryTrie.new.insert "255.255.255.255").search "255.255.255.255" = false := by
  have hkey : ipToBinary "255.255.255.255" = invalidKey := by decide
  have hins : BinaryTrie.new.insert "255.255.255.255" = BinaryTrie.new := by
    simp [BinaryTrie.insert, hkey]
  refine ⟨by decide, by decide, hkey, hins, ?_⟩
  rw [hins]
  exact searchKey_new _


/-! ## Rejection of malformed strings -/

/-- C11 fails on the code at `"65536.0.0.1"`: the string consists of digits and
dots, its first segment has the value 65536 > 255, yet the 16-bit accumulator
`num` wraps to 0 before the test `num > 255`, and the parser returns the key
of `0.0.0.1` instead of the sentinel. -/
theorem ipToBinary_wrapped_segment :
    dotted ['6', '5', '5', '3', '6'] ['0'] ['0'] ['1'] = "65536.0.0.1"
      ∧ hasInvalidChar "65536.0.0.1" = false
      ∧ segValue ['6', '5', '5', '3', '6'] = 65536
      ∧ ipToBinary "65536.0.0.1" = 1
      ∧ ipToBinary "65536.0.0.1" ≠ invalidKey
      ∧ ipToBinary "256.0.0.1" = invalidKey := by
  decide

/-- C12 fails on the code at `"1..2.3"` (two adjacent dots) and at `"1.2.3."`
(a trailing dot): the empty segment is read as the value 0 and the parser
returns the keys of `1.0.2.3` and of `1.2.3.0` instead of the sentinel. -/
theorem ipToBinary_empty_segment :
    dotted ['1'] [] ['2'] ['3'] = "1..2.3"
      ∧ ipToBinary "1..2.3" = pack 1 0 2 3
      ∧ ipToBinary "1..2.3" ≠ invalidKey
      ∧ ipToBinary "1.2.3." = pack 1 2 3 0
      ∧ ipToBinary "1.2.3." ≠ invalidKey := by
  decide

theorem parseLoop_none_of_invalid (cs : List Char) :
    ∀ st : ParseState, (∃ c ∈ cs, isDigit c = false ∧ c ≠ '.') → parseLoop cs st = none := by
  induction cs with
  | nil => intro st h; obtain ⟨c, hc, _⟩ := h; cases hc
  | cons c cs ih =>
    intro st h
    rw [parseLoop]
    cases hstep : parseStep st c with
    | none => rfl
    | some st1 =>
      obtain ⟨x, hx, hxd, hxp⟩ := h
      rcases List.mem_cons.1 hx with hxc | hxc
      · subst hxc
        simp [parseStep, hxd, hxp] at hstep
      · exact ih st1 ⟨x, hxc, hxd, hxp⟩

/-- When the loop runs to the end, `index` has been advanced once per dot. -/
theorem parseLoop_index (cs : List Char) :
    ∀ st st1 : ParseState, parseLoop cs st = some st1 →
      st1.index = st.index + cs.count '.' := by
  induction cs with
  | nil =>
    intro st st1 h
    simp [parseLoop] at h
    simp [← h]
  | cons c cs ih =>
    intro st st1 h
    rw [parseLoop] at h
    cases hstep : parseStep st c with
    | none => simp [hstep] at h
    | some st2 =>
      simp only [hstep] at h
      have h2 := ih st2 st1 h
      by_cases hd : isDigit c = true
      · have hc : c ≠ '.' := by
          intro hc
          subst hc
          exact absurd hd (by decide)
        simp [parseStep, hd] at hstep
        rw [h2, ← hstep, List.count_cons_of_ne (Ne.symm hc)]
      · by_cases hc : c = '.'
        · subst hc
          by_cases hchk : st.index ≥ 4 ∨ st.num > 255
          · simp [parseStep, hd, hchk] at hstep
          · simp only [parseStep, hd, hchk, if_false, if_true, Option.some.injEq,
              Bool.false_eq_true] at hstep
            have hmod : (st.index + 1) % 2 ^ 16 = st.index + 1 :=
              Nat.mod_eq_of_lt (by omega)
            rw [h2, ← hstep, List.count_cons_self]
            simp only [hmod]
            omega
        · simp [parseStep, hd, hc] at hstep

theorem ipToBinary_of_invalid_char {ip : String} (h : hasInvalidChar ip = true) :
    ipToBinary ip = invalidKey := by
  have hex : ∃ c ∈ ip.data, isDigit c = false ∧ c ≠ '.' := by
    simpa [hasInvalidChar] using h
  have hloop := parseLoop_none_of_invalid ip.data
    { parts := [0, 0, 0, 0], num := 0, index := 0 } hex
  unfold ipToBinary
  split
  · rfl
  · split
    · rfl
    · rw [hloop]

theorem ipToBinary_of_not_startsWithDigit {ip : String} (h : startsWithDigit ip = false) :
    ipToBinary ip = invalidKey := by
  unfold startsWithDigit at h
  unfold ipToBinary
  split
  · rfl
  · rename_i c0 rest heq
    rw [heq] at h
    have h1 : isDigit c0 = false := h
    simp [h1]

theorem ipToBinary_of_many_segments {ip : String} (h : 4 < segmentCount ip) :
    ipToBinary ip = invalidKey := by
  unfold segmentCount at h
  unfold ipToBinary
  split
  · rfl
  · split
    · rfl
    · cases hloop : parseLoop ip.data { parts := [0, 0, 0, 0], num := 0, index := 0 } with
      | none => rfl
      | some st =>
        have hidx := parseLoop_index ip.data _ st hloop
        have hge : st.index ≥ 4 := by
          rw [hidx]
          show 4 ≤ 0 + List.count '.' ip.data
          omega
        simp [hge]

/-- C13: a string that contains a character other than a digit or `'.'`, or
whose first character is not a digit (the empty string included), or that has
more than four `'.'`-separated segments, is mapped by `ipToBinary` to the
invalid-input sentinel `0xFFFFFFFF`. -/
theorem ipToBinary_rejects_malformed (ip : String)
    (h : hasInvalidChar ip = true ∨ startsWithDigit ip = false ∨ 4 < segmentCount ip) :
    ipToBinary ip = invalidKey := by
  rcases h with h | h | h
  · exact ipToBinary_of_invalid_char h
  · exact ipToBinary_of_not_startsWithDigit h
  · exact ipToBinary_of_many_segments h

theorem ipToBinary_rejects_malformed_witness :
    hasInvalidChar "10.0.0.x" = true ∧ ipToBinary "10.0.0.x" = invalidKey
      ∧ startsWithDigit "" = false ∧ ipToBinary "" = invalidKey
      ∧ startsWithDigit ".1.2.3" = false ∧ ipToBinary ".1.2.3" = invalidKey
      ∧ 4 < segmentCount "1.2.3.4.5" ∧ ipToBinary "1.2.3.4.5" = invalidKey
      ∧ invalidKey = 0xFFFFFFFF :=
  ⟨by decide, ipToBinary_rejects_malformed "10.0.0.x" (Or.inl (by decide)),
    by decide, ipToBinary_rejects_malformed "" (Or.inr (Or.inl (by decide))),
    by decide, ipToBinary_rejects_malformed ".1.2.3" (Or.inr (Or.inl (by decide))),
    by decide, ipToBinary_rejects_malformed "1.2.3.4.5" (Or.inr (Or.inr (by decide))),
    by decide⟩


/-! ## Delete leaves the other keys alone -/

theorem deleteHelper_node_zero (l r : TrieNode) (e : Bool) (key : Nat) {index : Int}
    (h : 0 ≤ index) (hb : keyBit key index = 0) :
    deleteHelper (node l r e) key index
      = (node (slot (deleteHelper l key (index - 1))) r e,
          !e && decide (slot (deleteHelper l key (index - 1)) = null) && decide (r = null)) := by
  simp [deleteHelper, not_lt.mpr h, hb, slot]

theorem deleteHelper_node_one (l r : TrieNode) (e : Bool) (key : Nat) {index : Int}
    (h : 0 ≤ index) (hb : keyBit key index ≠ 0) :
    deleteHelper (node l r e) key index
      = (node l (slot (deleteHelper r key (index - 1))) e,
          !e && decide (l = null) && decide (slot (deleteHelper r key (index - 1)) = null)) := by
  simp [deleteHelper, not_lt.mpr h, hb, slot]

/-- At a bit position `index ≥ 0` a dead node holds no key, so pruning it does
not change any search. -/
theorem searchHelper_slot_of_dead_flag (nd : TrieNode) (j : Nat) {index : Int}
    (h : 0 ≤ index) : searchHelper (slot (nd, dead nd)) j index = searchHelper nd j index := by
  cases nd with
  | null => simp [slot]
  | node l r e =>
    by_cases hd : dead (node l r e) = true
    · have hd1 := hd
      simp only [dead_node, Bool.and_eq_true, Bool.not_eq_true', decide_eq_true_eq] at hd1
      obtain ⟨⟨he, hl⟩, hr⟩ := hd1
      subst he hl hr
      simp [slot, searchHelper, not_lt.mpr h]
    · simp [slot, hd]

/-- The core delete of `k` does not change the search result of a key that
differs from `k` in one of the bits `index .. 0`. -/
theorem searchHelper_deleteHelper_of_ne (j k : Nat) :
    ∀ (p : TrieNode) (index : Int),
      j % 2 ^ (index + 1).toNat ≠ k % 2 ^ (index + 1).toNat →
      searchHelper (deleteHelper p k index).1 j index = searchHelper p j index
        ∧ searchHelper (slot (deleteHelper p k index)) j index = searchHelper p j index := by
  intro p
  induction p with
  | null => intro index _; simp [deleteHelper, slot]
  | node l r e ihl ihr =>
    intro index hne
    by_cases hi : index < 0
    · have h0 : (index + 1).toNat = 0 := by omega
      rw [h0] at hne
      exact absurd (by simp [Nat.mod_one]) hne
    · have hge : 0 ≤ index := not_lt.mp hi
      have h1 : (index + 1).toNat = index.toNat + 1 := by omega
      have h2 : (index - 1 + 1).toNat = index.toNat := by omega
      rw [h1, Ne, mod_two_pow_succ_eq_iff, ← keyBit_eq, ← keyBit_eq] at hne
      by_cases hk : keyBit k index = 0
      · rw [deleteHelper_node_zero l r e k hge hk]
        have hfst : searchHelper (node (slot (deleteHelper l k (index - 1))) r e) j index
            = searchHelper (node l r e) j index := by
          by_cases hj : keyBit j index = 0
          · have hlow : j % 2 ^ index.toNat ≠ k % 2 ^ index.toNat :=
              fun h => hne ⟨by rw [hj, hk], h⟩
            simp [searchHelper, hi, hj, (ihl (index - 1) (by rw [h2]; exact hlow)).2]
          · simp [searchHelper, hi, hj]
        refine ⟨hfst, ?_⟩
        have := searchHelper_slot_of_dead_flag
          (node (slot (deleteHelper l k (index - 1))) r e) j hge
        rw [dead_node] at this
        rw [this, hfst]
      · rw [deleteHelper_node_one l r e k hge hk]
        have hfst : searchHelper (node l (slot (deleteHelper r k (index - 1))) e) j index
            = searchHelper (node l r e) j index := by
          by_cases hj : keyBit j index = 0
          · simp [searchHelper, hi, hj]
          · have hjk : keyBit j index = keyBit k index := by
              have := keyBit_lt_two j index
              have := keyBit_lt_two k index
              omega
            have hlow : j % 2 ^ index.toNat ≠ k % 2 ^ index.toNat :=
              fun h => hne ⟨hjk, h⟩
            simp [searchHelper, hi, hj, (ihr (index - 1) (by rw [h2]; exact hlow)).2]
        refine ⟨hfst, ?_⟩
        have := searchHelper_slot_of_dead_flag
          (node l (slot (deleteHelper r k (index - 1))) e) j hge
        rw [dead_node] at this
        rw [this, hfst]

theorem searchKey_deleteKey_of_ne (t : BinaryTrie) {j k : Nat} (hj : j < 2 ^ 32)
    (hk : k < 2 ^ 32) (hne : j ≠ k) : (t.deleteKey k).searchKey j = t.searchKey j := by
  have h32 : ((31 : Int) + 1).toNat = 32 := by decide
  exact (searchHelper_deleteHelper_of_ne j k t.root 31
    (by rw [h32, Nat.mod_eq_of_lt hj, Nat.mod_eq_of_lt hk]; exact hne)).1

/-- C18: the core delete of a 32-bit key `k` leaves the search result of every
other 32-bit key `j` as it was, on every trie. -/
theorem delete_preserves_other_keys (t : BinaryTrie) (k j : Nat) (hk : k < 2 ^ 32)
    (hj : j < 2 ^ 32) (hne : j ≠ k) : (t.deleteKey k).searchKey j = t.searchKey j :=
  searchKey_deleteKey_of_ne t hj hk hne

theorem delete_preserves_other_keys_witness :
    (3232235777 : Nat) < 2 ^ 32 ∧ (167772161 : Nat) < 2 ^ 32 ∧ (167772161 : Nat) ≠ 3232235777
      ∧ (((BinaryTrie.new.insertKey 3232235777).insertKey 167772161).deleteKey
            3232235777).searchKey 167772161
          = ((BinaryTrie.new.insertKey 3232235777).insertKey 167772161).searchKey 167772161 :=
  ⟨by decide, by decide, by decide,
    delete_preserves_other_keys _ 3232235777 167772161 (by decide) (by decide) (by decide)⟩


/-! ## Invalid input never becomes a member -/

theorem ipToBinary_lt (ip : String) : ipToBinary ip < 2 ^ 32 := by
  have hinv : invalidKey < 2 ^ 32 := by decide
  unfold ipToBinary
  split
  · exact hinv
  · split
    · exact hinv
    · split
      · exact hinv
      · split
        · exact hinv
        · exact Nat.mod_lt _ (by decide)

/-- The public interface never stores the sentinel key. -/
theorem sentinel_absent_of_publicReachable {t : BinaryTrie} (h : PublicReachable t) :
    t.root ≠ null ∧ t.searchKey invalidKey = false := by
  have hinv : invalidKey < 2 ^ 32 := by decide
  induction h with
  | new => exact ⟨by decide, searchKey_new _⟩
  | insert t ip _ ih =>
    obtain ⟨h1, h2⟩ := ih
    by_cases hk : ipToBinary ip = invalidKey
    · simpa [BinaryTrie.insert, hk] using ⟨h1, h2⟩
    · have hins : t.insert ip = t.insertKey (ipToBinary ip) := by
        simp [BinaryTrie.insert, hk]
      rw [hins]
      refine ⟨insertHelper_ne_null h1 _ 31, ?_⟩
      rw [searchKey_insertKey h1 (ipToBinary_lt ip) hinv, h2]
      simp [hk]
  | remove t ip _ ih =>
    obtain ⟨h1, h2⟩ := ih
    refine ⟨deleteHelper_ne_null h1 _ 31, ?_⟩
    by_cases hk : ipToBinary ip = invalidKey
    · show searchHelper (deleteHelper t.root (ipToBinary ip) 31).1 invalidKey 31 = false
      rw [hk]
      exact searchHelper_deleteHelper invalidKey t.root 31
    · show (t.deleteKey (ipToBinary ip)).searchKey invalidKey = false
      rw [searchKey_deleteKey_of_ne t hinv (ipToBinary_lt ip) (Ne.symm hk), h2]

/-- C14: on every trie built from the freshly constructed one by public
`insert` and `remove` calls with arbitrary strings, for every string that
`ipToBinary` maps to the sentinel, the public insert leaves the trie unchanged
and the public search returns false, before and after that insert. -/
theorem invalid_input_never_member (t : BinaryTrie) (h : PublicReachable t) (s : String)
    (hs : ipToBinary s = invalidKey) :
    t.insert s = t ∧ (t.insert s).search s = false ∧ t.search s = false := by
  have hins : t.insert s = t := by simp [BinaryTrie.insert, hs]
  have hsearch : t.search s = false := by
    show t.searchKey (ipToBinary s) = false
    rw [hs]
    exact (sentinel_absent_of_publicReachable h).2
  exact ⟨hins, by rw [hins]; exact hsearch, hsearch⟩

theorem invalid_input_never_member_witness :
    PublicReachable ((BinaryTrie.new.insert "192.168.1.1").insert "10.0.0.1")
      ∧ ipToBinary "256.0.0.1" = invalidKey
      ∧ ((BinaryTrie.new.insert "192.168.1.1").insert "10.0.0.1").insert "256.0.0.1"
          = (BinaryTrie.new.insert "192.168.1.1").insert "10.0.0.1"
      ∧ (((BinaryTrie.new.insert "192.168.1.1").insert "10.0.0.1").insert
          "256.0.0.1").search "256.0.0.1" = false
      ∧ ((BinaryTrie.new.insert "192.168.1.1").insert "10.0.0.1").search "256.0.0.1" = false :=
  have hr : PublicReachable ((BinaryTrie.new.insert "192.168.1.1").insert "10.0.0.1") :=
    PublicReachable.insert _ _ (PublicReachable.insert _ _ PublicReachable.new)
  have hs : ipToBinary "256.0.0.1" = invalidKey := by decide
  ⟨hr, hs, invalid_input_never_member _ hr "256.0.0.1" hs⟩


/-! ## Pruning and shape invariants, stated on paths -/

@[simp] theorem descend_null (path : List Bool) : descend null path = null := by
  cases path <;> rfl

@[simp] theorem descend_nil (p : TrieNode) : descend p [] = p := by
  cases p <;> rfl

@[simp] theorem descend_node_cons (l r : TrieNode) (e b : Bool) (bs : List Bool) :
    descend (node l r e) (b :: bs) = descend (if b then r else l) bs := rfl

theorem dead_descend_of_liveBelow (path : List Bool) :
    ∀ p : TrieNode, liveBelow p = true → path ≠ [] → dead (descend p path) = false := by
  induction path with
  | nil => intro p _ h; exact absurd rfl h
  | cons b bs ih =>
    intro p hp _
    cases p with
    | null => simp
    | node l r e =>
      simp only [liveBelow, Bool.and_eq_true, Bool.not_eq_true'] at hp
      obtain ⟨⟨⟨hdl, hl⟩, hdr⟩, hr⟩ := hp
      rw [descend_node_cons]
      by_cases hbs : bs = []
      · subst hbs
        cases b <;> simp [hdl, hdr]
      · cases b
        · exact ih l hl hbs
        · exact ih r hr hbs

theorem shaped_descend (path : List Bool) :
    ∀ (p : TrieNode) (index : Int) (l r : TrieNode) (e : Bool), -1 ≤ index →
      shaped p index = true → descend p path = node l r e →
      (path.length : Int) ≤ index + 1 ∧ (e = true ↔ (path.length : Int) = index + 1) := by
  induction path with
  | nil =>
    intro p index l r e hlo hs hd
    rw [descend_nil] at hd
    subst hd
    by_cases hi : index < 0
    · simp [shaped, hi] at hs
      have : index = -1 := by omega
      subst this
      simp [hs.2]
    · simp [shaped, hi] at hs
      have he : e = false := hs.1.1
      subst he
      simp only [List.length_nil, Nat.cast_zero, Bool.false_eq_true, false_iff]
      omega
  | cons b bs ih =>
    intro p index l r e hlo hs hd
    cases p with
    | null => simp at hd
    | node l1 r1 e1 =>
      rw [descend_node_cons] at hd
      by_cases hi : index < 0
      · simp [shaped, hi] at hs
        obtain ⟨⟨hl1, hr1⟩, _⟩ := hs
        subst hl1 hr1
        cases b <;> simp at hd
      · simp [shaped, hi] at hs
        obtain ⟨⟨_, hsl⟩, hsr⟩ := hs
        have hc : shaped (if b then r1 else l1) (index - 1) = true := by
          cases b
          · simpa using hsl
          · simpa using hsr
        obtain ⟨h1, h2⟩ := ih _ (index - 1) l r e (by omega) hc hd
        simp only [List.length_cons, Nat.cast_add, Nat.cast_one]
        constructor
        · omega
        · rw [h2]
          constructor <;> intro h <;> omega

/-- The search follows the path of the key's bits and returns the flag of the
node it reaches. -/
theorem searchHelper_eq_terminal_descend (key : Nat) (n : Nat) :
    ∀ p : TrieNode, searchHelper p key ((n : Int) - 1) = terminal (descend p (keyPath key n)) := by
  induction n with
  | zero =>
    intro p
    cases p with
    | null => rfl
    | node l r e => simp [searchHelper, keyPath, terminal]
  | succ m ih =>
    intro p
    have hidx : ((m + 1 : Nat) : Int) - 1 = (m : Int) := by omega
    rw [hidx]
    cases p with
    | null => simp [searchHelper, terminal]
    | node l r e =>
      have hlt : ¬ (m : Int) < 0 := by omega
      by_cases hb : keyBit key (m : Int) = 0
      · simp [searchHelper, hlt, hb, keyPath, ih l]
      · simp [searchHelper, hlt, hb, keyPath, ih r]

/-- C15: in every trie reachable by core inserts and deletes, no node other
than the root (no node at the end of a non-empty path from the root) is both
childless and non-terminal, and the root itself is never removed. -/
theorem pruning_invariant (t : BinaryTrie) (hr : Reachable t) :
    t.root ≠ null
      ∧ ∀ path : List Bool, path ≠ [] → dead (descend t.root path) = false :=
  ⟨(inv_of_reachable hr).1,
    fun path hp => dead_descend_of_liveBelow path t.root (inv_of_reachable hr).2.2 hp⟩

theorem pruning_invariant_witness :
    Reachable mainTrie
      ∧ (mainTrie.root ≠ null
        ∧ ∀ path : List Bool, path ≠ [] → dead (descend mainTrie.root path) = false) :=
  ⟨reachable_mainTrie, pruning_invariant mainTrie reachable_mainTrie⟩

/-- C16: in every trie reachable by core inserts and deletes the root is a
non-terminal node, every node lies at depth at most 32, and a node is terminal
exactly when its depth is 32; the core search of a key returns the flag of the
node at the end of the 32 bit choices of the key (bit 31 down to bit 0), so the
terminal nodes are exactly the member keys. -/
theorem shape_invariant (t : BinaryTrie) (hr : Reachable t) :
    t.root ≠ null ∧ terminal t.root = false
      ∧ (∀ (path : List Bool) (l r : TrieNode) (e : Bool),
          descend t.root path = node l r e →
            path.length ≤ 32 ∧ (e = true ↔ path.length = 32))
      ∧ ∀ k : Nat, (keyPath k 32).length = 32
          ∧ t.searchKey k = terminal (descend t.root (keyPath k 32)) := by
  obtain ⟨h1, h2, _⟩ := inv_of_reachable hr
  have hshape : ∀ (path : List Bool) (l r : TrieNode) (e : Bool),
      descend t.root path = node l r e →
        path.length ≤ 32 ∧ (e = true ↔ path.length = 32) := by
    intro path l r e hd
    obtain ⟨a, b⟩ := shaped_descend path t.root 31 l r e (by decide) h2 hd
    constructor
    · omega
    · rw [b]
      constructor <;> intro h <;> omega
  refine ⟨h1, ?_, hshape, fun k => ⟨by simp [keyPath], ?_⟩⟩
  · cases hroot : t.root with
    | null => rfl
    | node l r e =>
      have := (hshape [] l r e (by rw [descend_nil, hroot])).2
      cases e
      · rfl
      · exact absurd (this.1 rfl) (by decide)
  · exact searchHelper_eq_terminal_descend k 32 t.root

theorem shape_invariant_witness :
    Reachable mainTrie
      ∧ (mainTrie.root ≠ null ∧ terminal mainTrie.root = false
        ∧ (∀ (path : List Bool) (l r : TrieNode) (e : Bool),
            descend mainTrie.root path = node l r e →
              path.length ≤ 32 ∧ (e = true ↔ path.length = 32))
        ∧ ∀ k : Nat, (keyPath k 32).length = 32
            ∧ mainTrie.searchKey k = terminal (descend mainTrie.root (keyPath k 32))) :=
  ⟨reachable_mainTrie, shape_invariant mainTrie reachable_mainTrie⟩


/-! ## Node count of an insert -/

theorem size_orFresh (p : TrieNode) :
    size p ≤ size (orFresh p) ∧ size (orFresh p) ≤ size p + 1 := by
  cases p <;> simp [fresh, size]

/-- An insert below bit position `index` keeps every node and creates at most
`index + 1` new ones. -/
theorem size_insertHelper (key : Nat) (index : Int) :
    ∀ p : TrieNode, size p ≤ size (insertHelper p key index)
      ∧ size (insertHelper p key index) ≤ size p + (index + 1).toNat := by
  induction index using index_induction with
  | neg i hi =>
    intro p
    cases p with
    | null => simp [insertHelper]
    | node l r e => simp [insertHelper_node_neg l r e key hi, size]
  | step i hi ih =>
    intro p
    cases p with
    | null => simp [insertHelper]
    | node l r e =>
      have hn : (i + 1).toNat = (i - 1 + 1).toNat + 1 := by omega
      by_cases hb : keyBit key i = 0
      · obtain ⟨h1, h2⟩ := ih (orFresh l)
        obtain ⟨h3, h4⟩ := size_orFresh l
        rw [insertHelper_node_zero l r e key hi hb, hn]
        simp only [size]
        omega
      · obtain ⟨h1, h2⟩ := ih (orFresh r)
        obtain ⟨h3, h4⟩ := size_orFresh r
        rw [insertHelper_node_one l r e key hi hb, hn]
        simp only [size]
        omega

theorem size_insertHelper_fresh (key : Nat) (index : Int) :
    size (insertHelper fresh key index) = 1 + (index + 1).toNat := by
  induction index using index_induction with
  | neg i hi =>
    have h0 : (i + 1).toNat = 0 := by omega
    rw [h0]
    exact congrArg size (insertHelper_node_neg null null false key hi)
  | step i hi ih =>
    have hn : (i + 1).toNat = (i - 1 + 1).toNat + 1 := by omega
    by_cases hb : keyBit key i = 0
    · have hf : insertHelper fresh key i = node (insertHelper fresh key (i - 1)) null false :=
        insertHelper_node_zero null null false key hi hb
      rw [hf, hn]
      simp only [size, ih]
      omega
    · have hf : insertHelper fresh key i = node null (insertHelper fresh key (i - 1)) false :=
        insertHelper_node_one null null false key hi hb
      rw [hf, hn]
      simp only [size, ih]
      omega

/-- Every node position of a tree is still a node position after an insert. -/
theorem descend_insertHelper_ne_null (key : Nat) (index : Int) :
    ∀ (p : TrieNode) (path : List Bool), descend p path ≠ null →
      descend (insertHelper p key index) path ≠ null := by
  induction index using index_induction with
  | neg i hi =>
    intro p path h
    cases p with
    | null => simp at h
    | node l r e =>
      rw [insertHelper_node_neg l r e key hi]
      cases path with
      | nil => simp
      | cons b bs => simpa using h
  | step i hi ih =>
    intro p path h
    cases p with
    | null => simp at h
    | node l r e =>
      cases path with
      | nil =>
        rw [descend_nil]
        exact insertHelper_ne_null (p := node l r e) (fun hn => TrieNode.noConfusion hn) key i
      | cons b bs =>
        rw [descend_node_cons] at h
        by_cases hb : keyBit key i = 0
        · rw [insertHelper_node_zero l r e key hi hb, descend_node_cons]
          cases b
          · have hl : l ≠ null := by
              intro hl
              subst hl
              simp at h
            rw [orFresh_of_ne_null hl]
            exact ih l bs (by simpa using h)
          · simpa using h
        · rw [insertHelper_node_one l r e key hi hb, descend_node_cons]
          cases b
          · simpa using h
          · have hr : r ≠ null := by
              intro hr
              subst hr
              simp at h
            rw [orFresh_of_ne_null hr]
            exact ih r bs (by simpa using h)

/-- C17: the core insert of a key removes no node (every node position stays,
the node count does not decrease) and creates at most 32 new nodes; on the
freshly constructed trie, which is the root alone, it creates exactly 32. -/
theorem insert_node_count (t : BinaryTrie) (k : Nat) :
    t.nodeCount ≤ (t.insertKey k).nodeCount
      ∧ (t.insertKey k).nodeCount ≤ t.nodeCount + 32
      ∧ (∀ path : List Bool, descend t.root path ≠ null →
          descend (t.insertKey k).root path ≠ null)
      ∧ BinaryTrie.new.nodeCount = 1
      ∧ (BinaryTrie.new.insertKey k).nodeCount = BinaryTrie.new.nodeCount + 32 := by
  obtain ⟨h1, h2⟩ := size_insertHelper k 31 t.root
  have h32 : ((31 : Int) + 1).toNat = 32 := by decide
  rw [h32] at h2
  refine ⟨h1, h2, fun path h => descend_insertHelper_ne_null k 31 t.root path h, rfl, ?_⟩
  show size (insertHelper fresh k 31) = size fresh + 32
  rw [size_insertHelper_fresh, h32]
  rfl


/-! ## Canonical form -/

/-- The search below bit position `index` only reads the bits `index .. 0`. -/
theorem searchHelper_congr (j k : Nat) :
    ∀ (p : TrieNode) (index : Int),
      j % 2 ^ (index + 1).toNat = k % 2 ^ (index + 1).toNat →
      searchHelper p j index = searchHelper p k index := by
  intro p
  induction p with
  | null => intro index _; rfl
  | node l r e ihl ihr =>
    intro index h
    by_cases hi : index < 0
    · simp [searchHelper, hi]
    · have h1 : (index + 1).toNat = index.toNat + 1 := by omega
      have h2 : (index - 1 + 1).toNat = index.toNat := by omega
      rw [h1, mod_two_pow_succ_eq_iff, ← keyBit_eq, ← keyBit_eq] at h
      obtain ⟨hbit, hlow⟩ := h
      rw [← h2] at hlow
      simp only [searchHelper, hi, if_false, hbit, ihl (index - 1) hlow, ihr (index - 1) hlow]

theorem keyBit_of_lt {k : Nat} {index : Int} (h : k < 2 ^ index.toNat) :
    keyBit k index = 0 := by
  rw [keyBit_eq, Nat.div_eq_of_lt h]

theorem keyBit_add_two_pow {k : Nat} {index : Int} (h : k < 2 ^ index.toNat) :
    keyBit (k + 2 ^ index.toNat) index = 1 := by
  rw [keyBit_eq, Nat.add_div_right _ (Nat.two_pow_pos _), Nat.div_eq_of_lt h]

/-- A node that satisfies the invariant and is not dead holds a key. -/
theorem exists_member_of_live :
    ∀ (p : TrieNode) (index : Int), shaped p index = true → liveBelow p = true →
      dead p = false → p ≠ null →
      ∃ k : Nat, k < 2 ^ (index + 1).toNat ∧ searchHelper p k index = true := by
  intro p
  induction p with
  | null => intro index _ _ _ h; exact absurd rfl h
  | node l r e ihl ihr =>
    intro index hs hlive hdead _
    by_cases hi : index < 0
    · simp [shaped, hi] at hs
      exact ⟨0, Nat.two_pow_pos _, by simp [searchHelper, hi, hs.2]⟩
    · have h1 : (index + 1).toNat = index.toNat + 1 := by omega
      have h2 : (index - 1 + 1).toNat = index.toNat := by omega
      simp [shaped, hi] at hs
      obtain ⟨⟨he, hsl⟩, hsr⟩ := hs
      subst he
      simp only [liveBelow, Bool.and_eq_true, Bool.not_eq_true'] at hlive
      obtain ⟨⟨⟨hdl, hl⟩, hdr⟩, hr⟩ := hlive
      have hpow : 2 ^ (index.toNat + 1) = 2 ^ index.toNat * 2 := pow_succ 2 _
      by_cases hln : l = null
      · have hrn : r ≠ null := by
          intro hrn
          subst hln hrn
          simp at hdead
        obtain ⟨k, hk, hfound⟩ := ihr (index - 1) hsr hr hdr hrn
        rw [h2] at hk
        refine ⟨k + 2 ^ index.toNat, by rw [h1, hpow]; omega, ?_⟩
        have hb : keyBit (k + 2 ^ index.toNat) index ≠ 0 := by
          rw [keyBit_add_two_pow hk]; decide
        have hc := searchHelper_congr (k + 2 ^ index.toNat) k r (index - 1)
          (by rw [h2, Nat.add_mod_right])
        simp [searchHelper, hi, hb, hc, hfound]
      · obtain ⟨k, hk, hfound⟩ := ihl (index - 1) hsl hl hdl hln
        rw [h2] at hk
        refine ⟨k, by rw [h1, hpow]; omega, ?_⟩
        simp [searchHelper, hi, keyBit_of_lt hk, hfound]

/-- Two subtrees that satisfy the invariant and hold the same keys are equal. -/
theorem eq_of_same_members :
    ∀ (p q : TrieNode) (index : Int), shaped p index = true → shaped q index = true →
      liveBelow p = true → liveBelow q = true →
      ((p = null ∨ q = null) → dead p = false ∧ dead q = false) →
      (∀ k : Nat, k < 2 ^ (index + 1).toNat → searchHelper p k index = searchHelper q k index) →
      p = q := by
  intro p
  induction p with
  | null =>
    intro q index _ hsq _ hlq hdead hagree
    by_cases hq : q = null
    · exact hq.symm
    · obtain ⟨k, hk, hfound⟩ :=
        exists_member_of_live q index hsq hlq (hdead (Or.inl rfl)).2 hq
      have := hagree k hk
      rw [hfound] at this
      simp [searchHelper] at this
  | node l r e ihl ihr =>
    intro q index hsp hsq hlp hlq hdead hagree
    cases q with
    | null =>
      obtain ⟨k, hk, hfound⟩ := exists_member_of_live (node l r e) index hsp hlp
        (hdead (Or.inr rfl)).1 (fun hn => TrieNode.noConfusion hn)
      have := hagree k hk
      rw [hfound] at this
      simp [searchHelper] at this
    | node l1 r1 e1 =>
      by_cases hi : index < 0
      · simp [shaped, hi] at hsp hsq
        obtain ⟨⟨a1, a2⟩, a3⟩ := hsp
        obtain ⟨⟨b1, b2⟩, b3⟩ := hsq
        subst a1 a2 a3 b1 b2 b3
        rfl
      · have h1 : (index + 1).toNat = index.toNat + 1 := by omega
        have h2 : (index - 1 + 1).toNat = index.toNat := by omega
        have hpow : 2 ^ (index.toNat + 1) = 2 ^ index.toNat * 2 := pow_succ 2 _
        simp [shaped, hi] at hsp hsq
        obtain ⟨⟨he, hsl⟩, hsr⟩ := hsp
        obtain ⟨⟨he1, hsl1⟩, hsr1⟩ := hsq
        subst he he1
        simp only [liveBelow, Bool.and_eq_true, Bool.not_eq_true'] at hlp hlq
        obtain ⟨⟨⟨hdl, hl⟩, hdr⟩, hr⟩ := hlp
        obtain ⟨⟨⟨hdl1, hl1⟩, hdr1⟩, hr1⟩ := hlq
        rw [h1] at hagree
        have hleft : l = l1 := by
          refine ihl l1 (index - 1) hsl hsl1 hl hl1 (fun _ => ⟨hdl, hdl1⟩) (fun k hk => ?_)
          rw [h2] at hk
          have := hagree k (by rw [hpow]; omega)
          simpa [searchHelper, hi, keyBit_of_lt hk] using this
        have hright : r = r1 := by
          refine ihr r1 (index - 1) hsr hsr1 hr hr1 (fun _ => ⟨hdr, hdr1⟩) (fun k hk => ?_)
          rw [h2] at hk
          have hb : keyBit (k + 2 ^ index.toNat) index ≠ 0 := by
            rw [keyBit_add_two_pow hk]; decide
          have := hagree (k + 2 ^ index.toNat) (by rw [hpow]; omega)
          simp only [searchHelper, hi, if_false, hb] at this
          rw [searchHelper_congr (k + 2 ^ index.toNat) k r (index - 1)
              (by rw [h2, Nat.add_mod_right]),
            searchHelper_congr (k + 2 ^ index.toNat) k r1 (index - 1)
              (by rw [h2, Nat.add_mod_right])] at this
          exact this
        rw [hleft, hright]

theorem eq_of_inv_of_same_members {t1 t2 : BinaryTrie} (h1 : Inv t1) (h2 : Inv t2)
    (hagree : ∀ k : Nat, k < 2 ^ 32 → t1.searchKey k = t2.searchKey k) : t1 = t2 := by
  obtain ⟨a1, a2, a3⟩ := h1
  obtain ⟨b1, b2, b3⟩ := h2
  cases t1 with
  | mk root1 =>
    cases t2 with
    | mk root2 =>
      have : root1 = root2 := by
        refine eq_of_same_members root1 root2 31 a2 b2 a3 b3 (fun h => ?_) (fun k hk => ?_)
        · rcases h with h | h
          · exact absurd h a1
          · exact absurd h b1
        · exact hagree k hk
      rw [this]

/-- C19: a reachable trie is determined by its member set.  Two tries reachable
by core inserts and deletes on which the core search agrees for every 32-bit
key are structurally equal; in particular a reachable trie that holds no key is
the freshly constructed trie, a root without children. -/
theorem canonical_form (t1 t2 : BinaryTrie) (h1 : Reachable t1) (h2 : Reachable t2)
    (hagree : ∀ k : Nat, k < 2 ^ 32 → t1.searchKey k = t2.searchKey k) :
    t1 = t2
      ∧ ((∀ k : Nat, k < 2 ^ 32 → t1.searchKey k = false) →
          t1 = BinaryTrie.new ∧ t1.root = node null null false) := by
  refine ⟨eq_of_inv_of_same_members (inv_of_reachable h1) (inv_of_reachable h2) hagree,
    fun hempty => ?_⟩
  have : t1 = BinaryTrie.new :=
    eq_of_inv_of_same_members (inv_of_reachable h1) inv_new
      (fun k hk => by rw [hempty k hk, searchKey_new])
  exact ⟨this, by rw [this]; rfl⟩

theorem canonical_form_witness :
    Reachable ((BinaryTrie.new.insertKey 167772161).insertKey 3232235777)
      ∧ Reachable ((BinaryTrie.new.insertKey 3232235777).insertKey 167772161)
      ∧ (∀ k : Nat, k < 2 ^ 32 →
          ((BinaryTrie.new.insertKey 167772161).insertKey 3232235777).searchKey k
            = ((BinaryTrie.new.insertKey 3232235777).insertKey 167772161).searchKey k)
      ∧ ((BinaryTrie.new.insertKey 167772161).insertKey 3232235777
            = (BinaryTrie.new.insertKey 3232235777).insertKey 167772161
          ∧ ((∀ k : Nat, k < 2 ^ 32 →
              ((BinaryTrie.new.insertKey 167772161).insertKey 3232235777).searchKey k = false) →
            (BinaryTrie.new.insertKey 167772161).insertKey 3232235777 = BinaryTrie.new
              ∧ ((BinaryTrie.new.insertKey 167772161).insertKey 3232235777).root
                  = node null null false)) :=
  have ha : (167772161 : Nat) < 2 ^ 32 := by decide
  have hb : (3232235777 : Nat) < 2 ^ 32 := by decide
  have hn : BinaryTrie.new.root ≠ null := by decide
  have hr1 : Reachable ((BinaryTrie.new.insertKey 167772161).insertKey 3232235777) :=
    Reachable.insertKey _ _ (Reachable.insertKey _ _ Reachable.new ha) hb
  have hr2 : Reachable ((BinaryTrie.new.insertKey 3232235777).insertKey 167772161) :=
    Reachable.insertKey _ _ (Reachable.insertKey _ _ Reachable.new hb) ha
  have hagree : ∀ k : Nat, k < 2 ^ 32 →
      ((BinaryTrie.new.insertKey 167772161).insertKey 3232235777).searchKey k
        = ((BinaryTrie.new.insertKey 3232235777).insertKey 167772161).searchKey k := by
    intro k hk
    rw [searchKey_insertKey (t := BinaryTrie.new.insertKey 167772161)
        (insertHelper_ne_null hn _ 31) hb hk,
      searchKey_insertKey hn ha hk,
      searchKey_insertKey (t := BinaryTrie.new.insertKey 3232235777)
        (insertHelper_ne_null hn _ 31) ha hk,
      searchKey_insertKey hn hb hk, searchKey_new]
    simp [Bool.or_comm]
  ⟨hr1, hr2, hagree, canonical_form _ _ hr1 hr2 hagree⟩

/-! ## Key round trip -/

theorem binaryToIp_eq_dottedDecimal (k : Nat) :
    binaryToIp k = dottedDecimal ((k >>> 24) &&& 0xFF) ((k >>> 16) &&& 0xFF)
      ((k >>> 8) &&& 0xFF) (k &&& 0xFF) := by
  rw [binaryToIp]
  apply String.ext
  simp [dottedDecimal, dotted, String.data_append, toString]

theorem and_255_eq_mod (x : Nat) : x &&& 0xFF = x % 256 :=
  Nat.and_pow_two_sub_one_eq_mod x 8

/-- C20: key round trip.  For every 32-bit key `k`, parsing the string that
`binaryToIp` produces for `k` gives `k` back. -/
theorem key_round_trip (k : Nat) (hk : k < 2 ^ 32) : ipToBinary (binaryToIp k) = k := by
  have hA : (k >>> 24) &&& 0xFF ≤ 255 := by rw [and_255_eq_mod]; omega
  have hB : (k >>> 16) &&& 0xFF ≤ 255 := by rw [and_255_eq_mod]; omega
  have hC : (k >>> 8) &&& 0xFF ≤ 255 := by rw [and_255_eq_mod]; omega
  have hD : k &&& 0xFF ≤ 255 := by rw [and_255_eq_mod]; omega
  rw [binaryToIp_eq_dottedDecimal, ipToBinary_dottedDecimal hA hB hC hD,
    pack_eq_add hA hB hC hD]
  simp only [and_255_eq_mod, Nat.shiftRight_eq_div_pow]
  omega

theorem key_round_trip_witness :
    (3232235777 : Nat) < 2 ^ 32
      ∧ binaryToIp 3232235777 = "192.168.1.1"
      ∧ ipToBinary (binaryToIp 3232235777) = 3232235777
      ∧ ipToBinary (binaryToIp 4294967295) = 4294967295 :=
  ⟨by decide, by decide, key_round_trip 3232235777 (by decide),
    key_round_trip 4294967295 (by decide)⟩

end BinaryTrieIPv4
